import Mathlib

/-!
Verification development for `refiners/foundationals/latent_diffusion/image_prompt.py`
(IP-Adapter: image-prompt conditioning for latent diffusion models).

Part 1: structural model of the module tree manipulated by
`CrossAttentionAdapter.inject` / `CrossAttentionAdapter.eject`
(image_prompt.py lines 299-322).

A fluxion module tree is modelled as an inductive tree.  Every leaf carries a
numeric identifier: two nodes with different identifiers model two distinct
Python objects, so structural equality of trees including identifiers models
object-graph identity.  `ImageCrossAttention` is modelled as a leaf here: its
internal sub-modules never participate in the structural search performed by
`inject` (which runs on the target *before* injection) or by `eject` (which
only inspects the direct children of the `Sum` parent); its numeric behaviour
is modelled separately below.
-/

/-- A fluxion module tree: `sdpa` is a `ScaledDotProductAttention` leaf,
`ica` an `ImageCrossAttention` (internals opaque for the structural claims),
`leaf` any other non-container module, `sum` an `fl.Sum`, and
`chain` any other `fl.Chain` container. -/
inductive MTree where
  | sdpa (id : Nat)
  | ica (id : Nat)
  | leaf (id : Nat)
  | sum (cs : List MTree)
  | chain (cs : List MTree)

namespace MTree

mutual
/-- Decidable structural equality on module trees. -/
def decEqM : (a b : MTree) → Decidable (a = b)
  | .sdpa i, .sdpa j =>
    match Nat.decEq i j with
    | isTrue h => isTrue (by rw [h])
    | isFalse h => isFalse (by intro hh; injection hh with h3; exact h h3)
  | .ica i, .ica j =>
    match Nat.decEq i j with
    | isTrue h => isTrue (by rw [h])
    | isFalse h => isFalse (by intro hh; injection hh with h3; exact h h3)
  | .leaf i, .leaf j =>
    match Nat.decEq i j with
    | isTrue h => isTrue (by rw [h])
    | isFalse h => isFalse (by intro hh; injection hh with h3; exact h h3)
  | .sum a, .sum b =>
    match decEqL a b with
    | isTrue h => isTrue (by rw [h])
    | isFalse h => isFalse (by intro hh; injection hh with h3; exact h h3)
  | .chain a, .chain b =>
    match decEqL a b with
    | isTrue h => isTrue (by rw [h])
    | isFalse h => isFalse (by intro hh; injection hh with h3; exact h h3)
  | .sdpa _, .ica _ | .sdpa _, .leaf _ | .sdpa _, .sum _ | .sdpa _, .chain _
  | .ica _, .sdpa _ | .ica _, .leaf _ | .ica _, .sum _ | .ica _, .chain _
  | .leaf _, .sdpa _ | .leaf _, .ica _ | .leaf _, .sum _ | .leaf _, .chain _
  | .sum _, .sdpa _ | .sum _, .ica _ | .sum _, .leaf _ | .sum _, .chain _
  | .chain _, .sdpa _ | .chain _, .ica _ | .chain _, .leaf _ | .chain _, .sum _ =>
    isFalse (by intro hh; exact MTree.noConfusion hh)
/-- Decidable structural equality on lists of module trees. -/
def decEqL : (a b : List MTree) → Decidable (a = b)
  | [], [] => isTrue rfl
  | [], _ :: _ => isFalse (by intro hh; exact List.noConfusion hh)
  | _ :: _, [] => isFalse (by intro hh; exact List.noConfusion hh)
  | x :: xs, y :: ys =>
    match decEqM x y, decEqL xs ys with
    | isTrue h1, isTrue h2 => isTrue (by rw [h1, h2])
    | isFalse h1, _ => isFalse (by intro hh; injection hh with h3 h4; exact h1 h3)
    | _, isFalse h2 => isFalse (by intro hh; injection hh with h3 h4; exact h2 h4)
end

instance : DecidableEq MTree := decEqM

mutual
/-- Number of `ScaledDotProductAttention` sub-modules in a tree (root
included, matching a recursive walk of the module graph). -/
def countSDPA : MTree → Nat
  | .sdpa _ => 1
  | .ica _ => 0
  | .leaf _ => 0
  | .sum cs => countSDPAL cs
  | .chain cs => countSDPAL cs
/-- Total `countSDPA` over a list of children. -/
def countSDPAL : List MTree → Nat
  | [] => 0
  | c :: cs => countSDPA c + countSDPAL cs
end

mutual
/-- Number of occurrences of `x` as a sub-tree of `t` (root included).
With unique leaf identifiers, `cnt x t = 1` models "the Python object `x`
occurs at exactly one position of the module graph `t`". -/
def cnt (x : MTree) : MTree → Nat
  | .sdpa i => if MTree.sdpa i = x then 1 else 0
  | .ica i => if MTree.ica i = x then 1 else 0
  | .leaf i => if MTree.leaf i = x then 1 else 0
  | .sum cs => (if MTree.sum cs = x then 1 else 0) + cntL x cs
  | .chain cs => (if MTree.chain cs = x then 1 else 0) + cntL x cs
/-- Total `cnt` over a list of children. -/
def cntL (x : MTree) : List MTree → Nat
  | [] => 0
  | c :: cs => cnt x c + cntL x cs
end

mutual
/-- First `ScaledDotProductAttention` sub-module in traversal order. -/
def firstSDPA : MTree → Option MTree
  | .sdpa i => some (.sdpa i)
  | .ica _ => none
  | .leaf _ => none
  | .sum cs => firstSDPAL cs
  | .chain cs => firstSDPAL cs
/-- First `ScaledDotProductAttention` over a list of children. -/
def firstSDPAL : List MTree → Option MTree
  | [] => none
  | c :: cs =>
    match firstSDPA c with
    | some s => some s
    | none => firstSDPAL cs
end

/-- Modelled from the spec: `fl.Chain.ensure_find` (the fluxion `Chain` class
is not part of this repository slice).  Spec 4.6: "Must locate exactly one
such sub-module per target; fails if none or multiple match." -/
def ensureFindSDPA (t : MTree) : Option MTree :=
  if countSDPA t = 1 then firstSDPA t else none

mutual
/-- Modelled from the spec: `fl.Chain.replace` ("in-place structural
replace", spec 6).  Python replaces the sub-module found by object identity;
with unique identifiers this is the sub-tree structurally equal to `old`,
replaced wherever it occurs (at exactly one position under the uniqueness
hypotheses used below). -/
def rep (old new : MTree) : MTree → MTree
  | .sdpa i => if MTree.sdpa i = old then new else .sdpa i
  | .ica i => if MTree.ica i = old then new else .ica i
  | .leaf i => if MTree.leaf i = old then new else .leaf i
  | .sum cs => if MTree.sum cs = old then new else .sum (repL old new cs)
  | .chain cs => if MTree.chain cs = old then new else .chain (repL old new cs)
/-- Pointwise `rep` over a list of children. -/
def repL (old new : MTree) : List MTree → List MTree
  | [] => []
  | c :: cs => rep old new c :: repL old new cs
end

mutual
/-- Modelled from the spec: `fl.Chain.ensure_find_parent` ("find parent of a
given descendant", spec 6): first node, in traversal order, having `x` among
its direct children. -/
def findParent (x : MTree) : MTree → Option MTree
  | .sdpa _ => none
  | .ica _ => none
  | .leaf _ => none
  | .sum cs => if x ∈ cs then some (.sum cs) else findParentL x cs
  | .chain cs => if x ∈ cs then some (.chain cs) else findParentL x cs
/-- First parent of `x` over a list of children. -/
def findParentL (x : MTree) : List MTree → Option MTree
  | [] => none
  | c :: cs =>
    match findParent x c with
    | some p => some p
    | none => findParentL x cs
end

/-- Modelled from the spec: `fl.Chain.remove` — unlink a direct child (by
identity; structural equality with unique identifiers). -/
def removeChild (p x : MTree) : MTree :=
  match p with
  | .sum cs => .sum (cs.filter (fun c => c ≠ x))
  | .chain cs => .chain (cs.filter (fun c => c ≠ x))
  | t => t

/-- Modelled from the spec: `parent.layer("ScaledDotProductAttention",
ScaledDotProductAttention)` — the direct child "found by name/type lookup"
(spec 4.6). -/
def layerSDPAChild (p : MTree) : Option MTree :=
  match p with
  | .sum cs => cs.find? (fun c => match c with | .sdpa _ => true | _ => false)
  | .chain cs => cs.find? (fun c => match c with | .sdpa _ => true | _ => false)
  | _ => none

/-- `CrossAttentionAdapter.inject` (image_prompt.py lines 299-309) restricted
to its structural effect on the target: find the unique
`ScaledDotProductAttention`, replace it by `fl.Sum(sdpa, image_cross_attention)`.
`icaId` identifies the adapter's freshly constructed `ImageCrossAttention`. -/
def injectCAA (icaId : Nat) (t : MTree) : Option MTree :=
  match ensureFindSDPA t with
  | none => none
  | some s => some (rep s (.sum [s, .ica icaId]) t)

/-- `CrossAttentionAdapter.eject` (image_prompt.py lines 311-322): find the
parent of the `ImageCrossAttention`, unlink the `ImageCrossAttention` from it,
then replace the (now mutated) parent by the original
`ScaledDotProductAttention` found among its remaining children. -/
def ejectCAA (icaId : Nat) (t : MTree) : Option MTree :=
  match findParent (.ica icaId) t with
  | none => none
  | some p =>
    let p2 := removeChild p (.ica icaId)
    let t2 := rep p p2 t
    match layerSDPAChild p2 with
    | none => none
    | some s => some (rep p2 s t2)

end MTree

/-!
Part 2: list-based tensor semantics for the Perceiver resampler
(image_prompt.py lines 48-234) and for the numeric claims about
`ImageCrossAttention` and `IPAdapter.compute_clip_image_embedding`.

Tensors are nested lists, outermost level = dim 0.  The scalar type is an
arbitrary `Field`; the transcendental scalar primitives used by the source
(exp inside softmax, sqrt inside LayerNorm, the GeLU nonlinearity) are
opaque parameters (`SOps`) since their implementations live in external
libraries — every claim settled here holds for any choice of them.  The
precision round-trip `.float()` / `.type(dtype)` at line 102 is the identity
in exact arithmetic.
-/

/-- Opaque scalar primitives supplied by the tensor backend. -/
structure SOps (α : Type) where
  exp : α → α
  sqrt : α → α
  gelu : α → α

/-- Rank-1 tensor. -/
abbrev Vec (α : Type) := List α

/-- Rank-2 tensor. -/
abbrev Mat (α : Type) := List (List α)

/-- Rank-3 tensor. -/
abbrev Ten3 (α : Type) := List (List (List α))

/-- Rank-4 tensor. -/
abbrev Ten4 (α : Type) := List (List (List (List α)))

/-- Every element of `l` has length `n`. -/
def allLen {β : Type} (n : Nat) (l : List (List β)) : Bool :=
  l.all (fun r => r.length == n)

/-- `m` is an `r × c` matrix. -/
def isMat {α : Type} (r c : Nat) (m : Mat α) : Bool :=
  m.length == r && allLen c m

/-- `t` has shape `(b, s, d)`. -/
def isTen3 {α : Type} (b s d : Nat) (t : Ten3 α) : Bool :=
  t.length == b && t.all (fun m => isMat s d m)

/-- `t` has shape `(b, h, s, d)`. -/
def isTen4 {α : Type} (b h s d : Nat) (t : Ten4 α) : Bool :=
  t.length == b && t.all (fun u => isTen3 h s d u)

/-- Propositional form of `isMat`. -/
def matShaped {α : Type} (r c : Nat) (m : Mat α) : Prop :=
  m.length = r ∧ ∀ row ∈ m, row.length = c

/-- Propositional form of `isTen3`. -/
def ten3Shaped {α : Type} (b s d : Nat) (t : Ten3 α) : Prop :=
  t.length = b ∧ ∀ m ∈ t, matShaped s d m

/-- Propositional form of `isTen4`. -/
def ten4Shaped {α : Type} (b h s d : Nat) (t : Ten4 α) : Prop :=
  t.length = b ∧ ∀ u ∈ t, ten3Shaped h s d u

section TensorOps

variable {α : Type} [Field α] {β : Type}

/-- Dot product of two vectors. -/
def dot (x y : Vec α) : α := (List.zipWith (· * ·) x y).sum

/-- A PyTorch `Linear` with weight `w` (one row per output feature) and
optional bias, applied to one vector: `y = w @ x + b`. -/
def linearV (w : Mat α) (b : Option (Vec α)) (x : Vec α) : Vec α :=
  let y := w.map (fun r => dot r x)
  match b with
  | some bv => List.zipWith (· + ·) y bv
  | none => y

/-- Apply a per-vector function over the last axis of a rank-3 tensor. -/
def map3 (f : Vec α → Vec α) (t : Ten3 α) : Ten3 α :=
  t.map (fun m => m.map f)

/-- `fl.Linear` over a `(batch, sequence, features)` tensor. -/
def linear3 (w : Mat α) (b : Option (Vec α)) : Ten3 α → Ten3 α :=
  map3 (linearV w b)

/-- Modelled from the spec: `fl.LayerNorm` (fluxion wraps the standard layer
normalization, which is outside this repository slice): normalize one vector
to zero mean and unit variance (up to `eps`) and apply the elementwise
affine parameters `w`, `b`. -/
def layerNormV (ops : SOps α) (eps : α) (w b x : Vec α) : Vec α :=
  let n : α := (x.length : α)
  let mu := x.sum / n
  let varx := (x.map (fun a => (a - mu) * (a - mu))).sum / n
  let sd := ops.sqrt (varx + eps)
  List.zipWith (· + ·) (List.zipWith (· * ·) (x.map (fun a => (a - mu) / sd)) w) b

/-- `fl.LayerNorm` over a rank-3 tensor. -/
def layerNorm3 (ops : SOps α) (eps : α) (w b : Vec α) : Ten3 α → Ten3 α :=
  map3 (layerNormV ops eps w b)

/-- `torch.softmax` over one row. -/
def softmaxRow (ops : SOps α) (x : Vec α) : Vec α :=
  let e := x.map ops.exp
  e.map (fun v => v / e.sum)

/-- `torch.softmax(dim=-1)` over a matrix. -/
def softmaxMat (ops : SOps α) (m : Mat α) : Mat α := m.map (softmaxRow ops)

/-- `FeedForward` (image_prompt.py lines 48-74): Linear (no bias), GeLU,
Linear (no bias) on one vector. -/
def ffV (ops : SOps α) (w1 w2 : Mat α) (x : Vec α) : Vec α :=
  linearV w2 none ((linearV w1 none x).map ops.gelu)

/-- `FeedForward` over a rank-3 tensor. -/
def ff3 (ops : SOps α) (w1 w2 : Mat α) : Ten3 α → Ten3 α :=
  map3 (ffV ops w1 w2)

/-- Pointwise sum of two rank-3 tensors (`fl.Residual` / `fl.Sum` addition). -/
def t3add (x y : Ten3 α) : Ten3 α :=
  List.zipWith (List.zipWith (List.zipWith (· + ·))) x y

/-- Pointwise right-scalar multiplication of a rank-3 tensor. -/
def t3smul (t : Ten3 α) (s : α) : Ten3 α :=
  t.map (fun m => m.map (fun r => r.map (fun v => v * s)))

/-- Split a list into consecutive chunks of size `k`. -/
def chunkEvery (k : Nat) (l : List β) : List (List β) :=
  if h : 0 < k ∧ l.length ≠ 0 then
    l.take k :: chunkEvery k (l.drop k)
  else []
termination_by l.length
decreasing_by
  simp only [List.length_drop]
  omega

/-- Transpose the two outermost levels of nesting. -/
def transposeL : List (List β) → List (List β)
  | [] => []
  | [r] => r.map (fun a => [a])
  | r :: rs => List.zipWith (fun a col => a :: col) r (transposeL rs)

/-- `tensor.chunk(2, dim=-1)` on one vector: split into two halves (the
first of size ⌈n/2⌉, per torch chunk semantics). -/
def chunkHalf (v : Vec α) : Vec α × Vec α :=
  let c := (v.length + 1) / 2
  (v.take c, v.drop c)

/-- `PerceiverScaledDotProductAttention.reshape_tensor` (image_prompt.py
lines 107-114): view `(bs, length, heads*head_dim)` as
`(bs, length, heads, head_dim)` then transpose to
`(bs, heads, length, head_dim)`. -/
def reshapeTensor (numHeads : Nat) (x : Ten3 α) : Ten4 α :=
  x.map (fun m => transposeL (m.map (fun v => chunkEvery (v.length / numHeads) v)))

/-- Multiply every entry of a matrix by `s` on the right (`q * self.scale`). -/
def smulMat (s : α) (m : Mat α) : Mat α :=
  m.map (fun r => r.map (fun v => v * s))

/-- `A @ B.transpose(-2, -1)`: entry `(i, j)` is `dot (A i) (B j)`. -/
def matMulRT (A B : Mat α) : Mat α :=
  A.map (fun r => B.map (fun rb => dot r rb))

/-- Number of columns of a matrix (length of its first row). -/
def width (m : Mat α) : Nat := (m.headD []).length

/-- All-zero vector. -/
def vzeros (n : Nat) : Vec α := List.replicate n 0

/-- Linear combination of the rows of `rows` with coefficients `coeffs`,
producing a vector of length `w`. -/
def lincomb (coeffs : Vec α) (rows : Mat α) (w : Nat) : Vec α :=
  (List.zipWith (fun c r => r.map (fun v => c * v)) coeffs rows).foldl
    (List.zipWith (· + ·)) (vzeros w)

/-- Plain matrix product `A @ B`: row `i` is the linear combination of the
rows of `B` with coefficients `A i`. -/
def matMul (A B : Mat α) : Mat α :=
  A.map (fun r => lincomb r B (width B))

/-- Undo `reshapeTensor`: `.permute(0, 2, 1, 3).reshape(bs, length, -1)`
(image_prompt.py line 105). -/
def unReshape (x : Ten4 α) : Ten3 α :=
  x.map (fun u => (transposeL u).map List.flatten)

/-- `PerceiverScaledDotProductAttention.forward` (image_prompt.py lines
89-105): chunk the combined key-value tensor in two along the last axis,
reshape query / key / value per head, multiply query and key by `scale`
*before* their dot product, softmax over the last axis (the
`.float()` / `.type()` round-trip is the identity in exact arithmetic),
multiply by value, and reshape back.  `scale` holds the value
`1 / sqrt(sqrt(head_dim))` computed at line 87. -/
def perceiverSDPA (ops : SOps α) (numHeads : Nat) (scale : α)
    (keyValue query : Ten3 α) : Ten3 α :=
  let key := keyValue.map (fun m => m.map (fun v => (chunkHalf v).1))
  let value := keyValue.map (fun m => m.map (fun v => (chunkHalf v).2))
  let q := reshapeTensor numHeads query
  let k := reshapeTensor numHeads key
  let v := reshapeTensor numHeads value
  let att1 := List.zipWith (fun qb kb => List.zipWith
      (fun qh kh => matMulRT (smulMat scale qh) (smulMat scale kh)) qb kb) q k
  let att2 := att1.map (fun bb => bb.map (softmaxMat ops))
  let att3 := List.zipWith (fun ab vb => List.zipWith matMul ab vb) att2 v
  unReshape att3

/-- Stated from the claim (C5), for comparison with `perceiverSDPA`:
reference attention whose pre-softmax matrix is the *raw* query-key product
divided by `sqrt(head_dim)` (passed as `sqrtHeadDim`), everything else
identical. -/
def perceiverSDPASpec (ops : SOps α) (numHeads : Nat) (sqrtHeadDim : α)
    (keyValue query : Ten3 α) : Ten3 α :=
  let key := keyValue.map (fun m => m.map (fun v => (chunkHalf v).1))
  let value := keyValue.map (fun m => m.map (fun v => (chunkHalf v).2))
  let q := reshapeTensor numHeads query
  let k := reshapeTensor numHeads key
  let v := reshapeTensor numHeads value
  let att1 := List.zipWith (fun qb kb => List.zipWith
      (fun qh kh => (matMulRT qh kh).map (fun r => r.map (fun x => x / sqrtHeadDim)))
      qb kb) q k
  let att2 := att1.map (fun bb => bb.map (softmaxMat ops))
  let att3 := List.zipWith (fun ab vb => List.zipWith matMul ab vb) att2 v
  unReshape att3

/-- `PerceiverAttention.to_kv` (image_prompt.py lines 162-163):
`torch.cat((x, latents), dim=-2)`. -/
def catSeq (x latents : Ten3 α) : Ten3 α := List.zipWith (· ++ ·) x latents

end TensorOps

/-- The weights of one `PerceiverAttention` block (image_prompt.py lines
117-160): two input LayerNorms, `Wkv` (out = 2·inner), `Wq` (out = inner)
and the output projection (out = embedding_dim), all three without bias. -/
structure PAttnW (α : Type) where
  ln1w : Vec α
  ln1b : Vec α
  ln2w : Vec α
  ln2b : Vec α
  wkv : Mat α
  wq : Mat α
  wout : Mat α

/-- The weights of one `TransformerLayer` of the resampler (image_prompt.py
lines 208-226): a `PerceiverAttention` block plus the LayerNorm and
`FeedForward` of the second residual. -/
structure PLayerW (α : Type) where
  attn : PAttnW α
  ln3w : Vec α
  ln3b : Vec α
  ffw1 : Mat α
  ffw2 : Mat α

/-- Weight shapes of a `PerceiverAttention` block exactly as constructed by
`PerceiverAttention.__init__` (image_prompt.py lines 117-160) with
`embedding_dim = latD`, `num_heads = h`, `head_dim = dh`
(`inner_dim = h * dh`). -/
def pAttnWF {α : Type} (latD h dh : Nat) (W : PAttnW α) : Prop :=
  W.ln1w.length = latD ∧ W.ln1b.length = latD ∧ W.ln2w.length = latD ∧
  W.ln2b.length = latD ∧ W.wkv.length = 2 * (h * dh) ∧ W.wq.length = h * dh ∧
  W.wout.length = latD

/-- Weight shapes of one resampler `TransformerLayer` exactly as constructed
by `PerceiverResampler.__init__` (image_prompt.py lines 204-231). -/
def pLayerWF {α : Type} (latD h dh : Nat) (L : PLayerW α) : Prop :=
  pAttnWF latD h dh L.attn ∧ L.ln3w.length = latD ∧ L.ln3b.length = latD ∧
  L.ffw2.length = latD

section PerceiverDefs

variable {α : Type} [Field α]

/-- `PerceiverAttention.forward` (image_prompt.py lines 129-160):
`Distribute` two LayerNorms over `(x, latents)`, build the key-value source
from `cat(x, latents)` through `Wkv`, the query from latents through `Wq`,
run `PerceiverScaledDotProductAttention`, and project back.  The two inputs
are passed explicitly (the `Parallel`/`GetArg` plumbing of the source
routes exactly these two values). -/
def perceiverAttention (ops : SOps α) (eps : α) (numHeads : Nat) (scale : α)
    (W : PAttnW α) (x latents : Ten3 α) : Ten3 α :=
  let xn := layerNorm3 ops eps W.ln1w W.ln1b x
  let ln := layerNorm3 ops eps W.ln2w W.ln2b latents
  let kv := linear3 W.wkv none (catSeq xn ln)
  let q := linear3 W.wq none ln
  linear3 W.wout none (perceiverSDPA ops numHeads scale kv q)

/-- One `TransformerLayer` (image_prompt.py lines 209-226): residual
perceiver attention against the shared context value `x`, then a residual
LayerNorm + FeedForward. -/
def transformerLayer (ops : SOps α) (eps : α) (numHeads : Nat) (scale : α)
    (L : PLayerW α) (x latents : Ten3 α) : Ten3 α :=
  let l1 := t3add latents (perceiverAttention ops eps numHeads scale L.attn x latents)
  t3add l1 (ff3 ops L.ffw1 L.ffw2 (layerNorm3 ops eps L.ln3w L.ln3b l1))

/-- `PerceiverResampler.forward` (image_prompt.py lines 204-231): project
the input to `latents_dim` (`wIn`/`bIn`), publish it as the shared context
value (`SetContext` / `UseContext` — modelled as explicit passing of `x` to
every layer, which is exactly what the side-channel delivers), start from
the learned latent tokens broadcast to the batch (`LatentsToken` wraps
`fl.Parameter`, modelled from the spec: "broadcast to the input batch
size"), fold the transformer layers, and finish with the output projection
(`wOut`/`bOut`) and LayerNorm. -/
def perceiverResampler (ops : SOps α) (eps : α) (numHeads : Nat) (scale : α)
    (wIn : Mat α) (bIn : Vec α) (latentsParam : Mat α) (layers : List (PLayerW α))
    (wOut : Mat α) (bOut : Vec α) (lnOutW lnOutB : Vec α) (input : Ten3 α) : Ten3 α :=
  let x := linear3 wIn (some bIn) input
  let lat0 : Ten3 α := x.map (fun _ => latentsParam)
  let latN := layers.foldl (fun lat L => transformerLayer ops eps numHeads scale L x lat) lat0
  layerNorm3 ops eps lnOutW lnOutB (linear3 wOut (some bOut) latN)

end PerceiverDefs

/-!
Part 3: `IPAdapter` orchestration (image_prompt.py lines 237-525).
-/

/-- Concrete Python class of an attention layer yielded by
`target.layers(fl.Attention)` (traversal itself is a fluxion facility
outside this slice).  `selfAttention2d` stands for a proper subclass of
`fl.SelfAttention`: for it `type(attn)` is *not* `fl.SelfAttention`, though
`isinstance(attn, fl.SelfAttention)` holds. -/
inductive AttnClass where
  | attention
  | selfAttention
  | selfAttention2d
  deriving DecidableEq

/-- `type(attn) == fl.SelfAttention` — exact class identity, the test used
(negated) by the filter at image_prompt.py line 392. -/
def isExactlySelfAttention : AttnClass → Bool
  | .selfAttention => true
  | _ => false

/-- `isinstance(attn, fl.SelfAttention)` — also true for subclasses.  Not
used by the source; stated so theorems can speak about subclasses. -/
def isSelfAttentionInstance : AttnClass → Bool
  | .selfAttention => true
  | .selfAttention2d => true
  | _ => false

/-- One attention layer of the target, tagged with its concrete class
(`uid` distinguishes distinct layer objects). -/
structure AttnLayer where
  uid : Nat
  cls : AttnClass
  deriving DecidableEq

/-- A constructed `CrossAttentionAdapter`, reduced to its target reference
and scale (image_prompt.py lines 283-297). -/
structure CrossAttnAdapterRef where
  target : AttnLayer
  scale : ℚ
  deriving DecidableEq

/-- The `sub_adapters` list built by `IPAdapter.__init__` (image_prompt.py
lines 390-393): one `CrossAttentionAdapter` per attention layer whose
concrete type is not exactly `fl.SelfAttention`, in traversal order. -/
def ipSubAdapters (attnLayers : List AttnLayer) (scale : ℚ) : List CrossAttnAdapterRef :=
  (attnLayers.filter (fun attn => !(isExactlySelfAttention attn.cls))).map
    (fun attn => ⟨attn, scale⟩)

/-- Ragged shape of a rank-3 tensor: per batch element, the list of its row
lengths. -/
def shape3 {α : Type} (t : Ten3 α) : List (List Nat) :=
  t.map (fun m => m.map List.length)

/-- All-zero tensor of the same shape as `t` (`torch.zeros_like`). -/
def t3zerosLike {α : Type} [Field α] (t : Ten3 α) : Ten3 α :=
  t.map (fun m => m.map (fun r => r.map (fun _ => (0 : α))))

/-- Modelled from the spec: `fl.Multiply(scale)` (fluxion, outside this
slice) — "multiply the result by a scalar scale" (spec 4.5); the default
bias 0 is dropped as `+ 0` is the identity in exact arithmetic. -/
def t3smulL {α : Type} [Field α] (s : α) (t : Ten3 α) : Ten3 α :=
  t.map (fun m => m.map (fun r => r.map (fun v => s * v)))

section ImageCrossAttentionDefs

variable {α : Type} [Field α]

/-- `ImageCrossAttention.forward` (image_prompt.py lines 237-268): the
`fl.Sum` node passes the target attention's `(q, k, v)` tuple to it; the
query goes through unchanged (`fl.Identity`), the text key and value inputs
are discarded and replaced by linear projections of the published
`clip_image_embedding` context tensor (`fl.UseContext` + `fl.Linear`, bias
per `text_cross_attention.use_bias`); the result of the standard
`ScaledDotProductAttention` — `sdpaF`, an arbitrary function since that
module is outside this slice — is multiplied by `scale` (`fl.Multiply`). -/
def imageCrossAttention (sdpaF : Ten3 α → Ten3 α → Ten3 α → Ten3 α)
    (wk wv : Mat α) (bk bv : Option (Vec α)) (scale : α)
    (clipImageEmbedding : Ten3 α) (q k v : Ten3 α) : Ten3 α :=
  t3smulL scale
    (sdpaF q (linear3 wk bk clipImageEmbedding) (linear3 wv bv clipImageEmbedding))

/-- The computation at the injection point after
`CrossAttentionAdapter.inject` (image_prompt.py lines 302-308): an `fl.Sum`
(modelled from the spec) of the original `ScaledDotProductAttention` output
and the `ImageCrossAttention` output, both on the same `(q, k, v)` input. -/
def injectedSdpaSum (sdpaF : Ten3 α → Ten3 α → Ten3 α → Ten3 α)
    (wk wv : Mat α) (bk bv : Option (Vec α)) (scale : α)
    (clipImageEmbedding : Ten3 α) (q k v : Ten3 α) : Ten3 α :=
  t3add (sdpaF q k v)
    (imageCrossAttention sdpaF wk wv bk bv scale clipImageEmbedding q k v)

end ImageCrossAttentionDefs

section ClipEmbeddingDefs

variable {α : Type} [Field α] [DecidableEq α]

/-- Weight-scaling phase of `IPAdapter.compute_clip_image_embedding`
(image_prompt.py lines 500-505): if any weight differs from 1.0, multiply
the conditional embedding by the weight tensor broadcast over the token and
feature axes (`unsqueeze(-1).unsqueeze(-1)`: weight `i` scales batch slice
`i`); otherwise leave the tensor untouched. -/
def applyIPWeights (ws : List α) (cond : Ten3 α) : Ten3 α :=
  if ws.any (fun w => w ≠ 1) then
    List.zipWith (fun w img => img.map (fun tok => tok.map (fun x => x * w))) ws cond
  else cond

/-- `tensor.chunk(n)` along dim 0: consecutive chunks of size `⌈len/n⌉`. -/
def chunkDim0 {T : Type} (n : Nat) (t : List T) : List (List T) :=
  chunkEvery ((t.length + n - 1) / n) t

/-- `torch.cat(ts, dim=1)` over a list of rank-3 tensors. -/
def catAlong1 (ts : List (Ten3 α)) : Ten3 α :=
  match ts with
  | [] => []
  | t :: rest => rest.foldl (fun acc u => List.zipWith (· ++ ·) acc u) t

/-- Batch folding and final concatenation of
`compute_clip_image_embedding` (image_prompt.py lines 507-513): when more
than one image is present and `concat_batches` holds, split each embedding
along the batch axis and concatenate the pieces along the token axis; then
return `cat((negative, conditional))` along the batch axis. -/
def foldAndConcat (batchSize : Nat) (concatBatches : Bool) (neg cond : Ten3 α) : Ten3 α :=
  if 1 < batchSize ∧ concatBatches = true then
    catAlong1 (chunkDim0 batchSize neg) ++ catAlong1 (chunkDim0 batchSize cond)
  else
    neg ++ cond

/-- Tail of `IPAdapter.compute_clip_image_embedding` after the encoder
(image_prompt.py lines 495-513): `batchSize` is `image_prompt.shape[0]`;
a provided weight list whose length differs from the batch size raises
(modelled as `none`), otherwise the conditional embedding is optionally
scaled, both embeddings are batch-folded and concatenated. -/
def computeClipTail (batchSize : Nat) (weights : Option (List α)) (concatBatches : Bool)
    (neg cond : Ten3 α) : Option (Ten3 α) :=
  match weights with
  | none => some (foldAndConcat batchSize concatBatches neg cond)
  | some ws =>
    if ws.length = batchSize then
      some (foldAndConcat batchSize concatBatches neg (applyIPWeights ws cond))
    else none

end ClipEmbeddingDefs

/-- Total number of scalar entries of a rank-3 tensor. -/
def numel3 {α : Type} (t : Ten3 α) : Nat :=
  (t.map (fun m => (m.map List.length).sum)).sum

/-- `IPAdapter._compute_clip_image_embedding` (image_prompt.py lines
515-525), instrumented with a count of image-encoder forward passes.  The
encoders, the projector and `torch.zeros_like` are abstract functions on an
abstract tensor type `T` (all are external collaborators).  Returns
`((negative_embedding, conditional_embedding), encoder_passes)`.  In
fine-grained mode the negative embedding re-encodes an all-zero image
tensor from scratch (second encoder pass); otherwise it is the projection
of an all-zero tensor shaped like the *encoder output* (`clip_embedding`),
with no second encoder pass. -/
def computeClipImageEmbeddingCore {T : Type} (fineGrained : Bool)
    (clipImageEncoder gridImageEncoder imageProj zerosLike : T → T)
    (imagePrompt : T) : (T × T) × Nat :=
  let imageEncoder := if fineGrained then gridImageEncoder else clipImageEncoder
  let clipEmbedding := imageEncoder imagePrompt
  let conditionalEmbedding := imageProj clipEmbedding
  if !fineGrained then
    ((imageProj (zerosLike clipEmbedding), conditionalEmbedding), 1)
  else
    ((imageProj (imageEncoder (zerosLike imagePrompt)), conditionalEmbedding), 2)

/-- `str.startswith` on strings modelled as character lists. -/
def keyStartsWith : List Char → List Char → Bool
  | _, [] => true
  | [], _ :: _ => false
  | c :: s, p :: ps => c == p && keyStartsWith s ps

/-- `f"ip_adapter.{i:03d}."` (image_prompt.py line 404): the zero-padded
three-digit key prefix of sub-adapter `i`, as a character list. -/
def ipAdapterKeyPfx (i : Nat) : List Char :=
  "ip_adapter.".toList ++ (if i < 10 then ['0', '0'] else if i < 100 then ['0'] else [])
    ++ Nat.toDigits 10 i ++ ['.']

/-- Weight collection of `IPAdapter.__init__` for sub-adapter `i`
(image_prompt.py lines 401-407): scan the bundle in iteration order and
keep the values whose key starts with the prefix — the key's remaining
characters are never inspected. -/
def collectCrossAttnWeights {T : Type} (weights : List (List Char × T)) (i : Nat) : List T :=
  (weights.filter (fun kv => keyStartsWith kv.1 (ipAdapterKeyPfx i))).map (fun kv => kv.2)

/-- Lines 409-410 plus `CrossAttentionAdapter.load_weights` (lines
344-347): exactly two collected tensors are required (`assert`, modelled as
`none` on violation); they are passed positionally, so the first becomes
the image-key projection weight and the second the image-value projection
weight. -/
def loadCrossAttnWeights {T : Type} (weights : List (List Char × T)) (i : Nat) :
    Option (T × T) :=
  match collectCrossAttnWeights weights i with
  | [keyTensor, valueTensor] => some (keyTensor, valueTensor)
  | _ => none

namespace MTree

theorem repL_eq_map (old new : MTree) : ∀ cs, repL old new cs = cs.map (rep old new)
  | [] => rfl
  | c :: cs => by simp only [repL, List.map]; rw [repL_eq_map old new cs]

theorem cnt_self : ∀ x : MTree, 1 ≤ cnt x x
  | .sdpa i => by simp [cnt]
  | .ica i => by simp [cnt]
  | .leaf i => by simp [cnt]
  | .sum cs => by simp [cnt]
  | .chain cs => by simp [cnt]

theorem cnt_mem_le (x : MTree) : ∀ (cs : List MTree) (c : MTree), c ∈ cs → cnt x c ≤ cntL x cs
  | _ :: cs, c, List.Mem.head _ => by simp only [cntL]; omega
  | e :: cs, c, List.Mem.tail _ h => by
    have := cnt_mem_le x cs c h
    simp only [cntL]
    omega

theorem cntL_zero (x : MTree) {cs : List MTree} (h : cntL x cs = 0) :
    ∀ c ∈ cs, cnt x c = 0 := by
  intro c hc
  have := cnt_mem_le x cs c hc
  omega

mutual
theorem rep_of_cnt_zero (old new : MTree) :
    ∀ t, cnt old t = 0 → rep old new t = t
  | .sdpa i, h => by
    simp only [cnt] at h
    simp only [rep]
    split at h
    · omega
    · simp_all
  | .ica i, h => by
    simp only [cnt] at h
    simp only [rep]
    split at h
    · omega
    · simp_all
  | .leaf i, h => by
    simp only [cnt] at h
    simp only [rep]
    split at h
    · omega
    · simp_all
  | .sum cs, h => by
    simp only [cnt] at h
    simp only [rep]
    split at h
    · omega
    · simp_all
      exact repL_of_cnt_zero old new cs h
  | .chain cs, h => by
    simp only [cnt] at h
    simp only [rep]
    split at h
    · omega
    · simp_all
      exact repL_of_cnt_zero old new cs h
theorem repL_of_cnt_zero (old new : MTree) :
    ∀ cs, cntL old cs = 0 → repL old new cs = cs
  | [], _ => rfl
  | c :: cs, h => by
    simp only [cntL] at h
    simp only [repL]
    rw [rep_of_cnt_zero old new c (by omega), repL_of_cnt_zero old new cs (by omega)]
end

mutual
theorem cnt_trans : ∀ (c a b : MTree), 1 ≤ cnt a b → 1 ≤ cnt b c → 1 ≤ cnt a c
  | .sdpa i, a, b, hab, hbc => by
    simp only [cnt] at hbc
    split at hbc
    · subst b; simpa using hab
    · omega
  | .ica i, a, b, hab, hbc => by
    simp only [cnt] at hbc
    split at hbc
    · subst b; simpa using hab
    · omega
  | .leaf i, a, b, hab, hbc => by
    simp only [cnt] at hbc
    split at hbc
    · subst b; simpa using hab
    · omega
  | .sum cs, a, b, hab, hbc => by
    simp only [cnt] at hbc ⊢
    by_cases hb : MTree.sum cs = b
    · subst b; simpa using hab
    · rw [if_neg hb] at hbc
      simp only [Nat.add_zero, Nat.zero_add] at hbc
      have := cntL_trans cs a b hab hbc
      omega
  | .chain cs, a, b, hab, hbc => by
    simp only [cnt] at hbc ⊢
    by_cases hb : MTree.chain cs = b
    · subst b; simpa using hab
    · rw [if_neg hb] at hbc
      simp only [Nat.add_zero, Nat.zero_add] at hbc
      have := cntL_trans cs a b hab hbc
      omega
theorem cntL_trans : ∀ (cs : List MTree) (a b : MTree),
    1 ≤ cnt a b → 1 ≤ cntL b cs → 1 ≤ cntL a cs
  | c :: cs, a, b, hab, hbc => by
    simp only [cntL] at hbc ⊢
    by_cases hc : 1 ≤ cnt b c
    · have := cnt_trans c a b hab hc
      omega
    · have : 1 ≤ cntL b cs := by omega
      have := cntL_trans cs a b hab this
      omega
end

mutual
theorem firstSDPA_spec : ∀ (t s : MTree), firstSDPA t = some s →
    (∃ j, s = MTree.sdpa j) ∧ 1 ≤ cnt s t
  | .sdpa i, s, h => by
    simp only [firstSDPA] at h
    cases h
    exact ⟨⟨i, rfl⟩, by simp [cnt]⟩
  | .sum cs, s, h => by
    simp only [firstSDPA] at h
    obtain ⟨hj, hc⟩ := firstSDPAL_spec cs s h
    refine ⟨hj, ?_⟩
    simp only [cnt]
    omega
  | .chain cs, s, h => by
    simp only [firstSDPA] at h
    obtain ⟨hj, hc⟩ := firstSDPAL_spec cs s h
    refine ⟨hj, ?_⟩
    simp only [cnt]
    omega
theorem firstSDPAL_spec : ∀ (cs : List MTree) (s : MTree), firstSDPAL cs = some s →
    (∃ j, s = MTree.sdpa j) ∧ 1 ≤ cntL s cs
  | c :: cs, s, h => by
    simp only [firstSDPAL] at h
    cases hc : firstSDPA c with
    | some s2 =>
      rw [hc] at h
      cases h
      obtain ⟨hj, h1⟩ := firstSDPA_spec c s hc
      refine ⟨hj, ?_⟩
      simp only [cntL]
      omega
    | none =>
      rw [hc] at h
      obtain ⟨hj, h1⟩ := firstSDPAL_spec cs s h
      refine ⟨hj, ?_⟩
      simp only [cntL]
      omega
end

mutual
theorem cnt_sdpa_le : ∀ (j : Nat) (t : MTree), cnt (MTree.sdpa j) t ≤ countSDPA t
  | j, .sdpa i => by
    simp only [cnt, countSDPA]
    split <;> omega
  | j, .ica i => by simp [cnt, countSDPA]
  | j, .leaf i => by simp [cnt, countSDPA]
  | j, .sum cs => by
    simp only [cnt, countSDPA]
    have := cnt_sdpaL_le j cs
    simp only [reduceCtorEq, if_false]
    omega
  | j, .chain cs => by
    simp only [cnt, countSDPA]
    have := cnt_sdpaL_le j cs
    simp only [reduceCtorEq, if_false]
    omega
theorem cnt_sdpaL_le : ∀ (j : Nat) (cs : List MTree), cntL (MTree.sdpa j) cs ≤ countSDPAL cs
  | _, [] => le_refl _
  | j, c :: cs => by
    simp only [cntL, countSDPAL]
    have h1 := cnt_sdpa_le j c
    have h2 := cnt_sdpaL_le j cs
    omega
end

mutual
theorem countSDPA_pos : ∀ t : MTree, 1 ≤ countSDPA t → ∃ s, firstSDPA t = some s
  | .sdpa i, _ => ⟨.sdpa i, rfl⟩
  | .ica _, h => by simp [countSDPA] at h
  | .leaf _, h => by simp [countSDPA] at h
  | .sum cs, h => by
    simp only [countSDPA] at h
    simpa only [firstSDPA] using countSDPAL_pos cs h
  | .chain cs, h => by
    simp only [countSDPA] at h
    simpa only [firstSDPA] using countSDPAL_pos cs h
theorem countSDPAL_pos : ∀ cs : List MTree, 1 ≤ countSDPAL cs → ∃ s, firstSDPAL cs = some s
  | c :: cs, h => by
    simp only [countSDPAL] at h
    simp only [firstSDPAL]
    cases hc : firstSDPA c with
    | some s => exact ⟨s, rfl⟩
    | none =>
      by_cases h1 : 1 ≤ countSDPA c
      · obtain ⟨s, hs⟩ := countSDPA_pos c h1
        rw [hs] at hc
        cases hc
      · exact countSDPAL_pos cs (by omega)
end

mutual
theorem findParent_some_cnt : ∀ (t x p : MTree), findParent x t = some p → 1 ≤ cnt x t
  | .sum cs, x, p, h => by
    simp only [findParent] at h
    simp only [cnt]
    split at h
    · rename_i hm
      have := cnt_mem_le x cs x hm
      have := cnt_self x
      omega
    · have := findParentL_some_cnt cs x p h
      omega
  | .chain cs, x, p, h => by
    simp only [findParent] at h
    simp only [cnt]
    split at h
    · rename_i hm
      have := cnt_mem_le x cs x hm
      have := cnt_self x
      omega
    · have := findParentL_some_cnt cs x p h
      omega
theorem findParentL_some_cnt : ∀ (cs : List MTree) (x p : MTree),
    findParentL x cs = some p → 1 ≤ cntL x cs
  | c :: cs, x, p, h => by
    simp only [findParentL] at h
    simp only [cntL]
    cases hc : findParent x c with
    | some q =>
      have := findParent_some_cnt c x q hc
      omega
    | none =>
      rw [hc] at h
      have := findParentL_some_cnt cs x p h
      omega
end

theorem rep_ne_ica (s : MTree) (i : Nat) (hs : ∃ j, s = MTree.sdpa j) :
    ∀ c, cnt (MTree.ica i) c = 0 → rep s (MTree.sum [s, MTree.ica i]) c ≠ MTree.ica i := by
  obtain ⟨j, rfl⟩ := hs
  intro c hc
  cases c <;> simp only [rep] <;> split_ifs <;> simp_all [cnt]

theorem repRep_ne_s (s : MTree) (i : Nat) (hs : ∃ j, s = MTree.sdpa j) :
    ∀ c, rep (MTree.sum [s, MTree.ica i]) (MTree.sum [s])
      (rep s (MTree.sum [s, MTree.ica i]) c) ≠ s := by
  obtain ⟨j, rfl⟩ := hs
  intro c
  cases c <;> simp only [rep] <;> split_ifs <;> simp_all [rep] <;> split_ifs <;> simp_all

theorem ica_notMem_repL (s : MTree) (i : Nat) (hs : ∃ j, s = MTree.sdpa j)
    {cs : List MTree} (h : cntL (MTree.ica i) cs = 0) :
    MTree.ica i ∉ repL s (MTree.sum [s, MTree.ica i]) cs := by
  rw [repL_eq_map]
  intro hm
  rw [List.mem_map] at hm
  obtain ⟨a, ha, hfa⟩ := hm
  exact rep_ne_ica s i hs a (cntL_zero _ h a ha) hfa

theorem s_notMem_repL2 (s : MTree) (i : Nat) (hs : ∃ j, s = MTree.sdpa j)
    {cs : List MTree} :
    s ∉ repL (MTree.sum [s, MTree.ica i]) (MTree.sum [s])
      (repL s (MTree.sum [s, MTree.ica i]) cs) := by
  rw [repL_eq_map, repL_eq_map]
  intro hm
  rw [List.mem_map] at hm
  obtain ⟨b, hb, hfb⟩ := hm
  rw [List.mem_map] at hb
  obtain ⟨a, ha, hfa⟩ := hb
  subst hfa
  exact repRep_ne_s s i hs a hfb

theorem cnt_ica_P (s : MTree) (i : Nat) (hs : ∃ j, s = MTree.sdpa j) :
    1 ≤ cnt (MTree.ica i) (MTree.sum [s, MTree.ica i]) := by
  obtain ⟨j, rfl⟩ := hs
  simp [cnt, cntL]

theorem cnt_s_Q (s : MTree) : 1 ≤ cnt s (MTree.sum [s]) := by
  have := cnt_self s
  simp only [cnt, cntL]
  omega

theorem tripleFix (s : MTree) (i : Nat) (hs : ∃ j, s = MTree.sdpa j)
    (c : MTree) (h0 : cnt s c = 0) (hica : cnt (MTree.ica i) c = 0) :
    rep (MTree.sum [s]) s (rep (MTree.sum [s, MTree.ica i]) (MTree.sum [s])
      (rep s (MTree.sum [s, MTree.ica i]) c)) = c := by
  rw [rep_of_cnt_zero _ _ c h0]
  have hPc : cnt (MTree.sum [s, MTree.ica i]) c = 0 := by
    by_contra h
    have h1 : 1 ≤ cnt (MTree.sum [s, MTree.ica i]) c := by omega
    have := cnt_trans c (MTree.ica i) (MTree.sum [s, MTree.ica i]) (cnt_ica_P s i hs) h1
    omega
  rw [rep_of_cnt_zero _ _ c hPc]
  have hQc : cnt (MTree.sum [s]) c = 0 := by
    by_contra h
    have h1 : 1 ≤ cnt (MTree.sum [s]) c := by omega
    have := cnt_trans c s (MTree.sum [s]) (cnt_s_Q s) h1
    omega
  exact rep_of_cnt_zero _ _ c hQc

mutual
theorem findParent_rep : ∀ (t s : MTree) (i : Nat), (∃ j, s = MTree.sdpa j) →
    cnt s t = 1 → cnt (MTree.ica i) t = 0 →
    findParent (MTree.ica i) (rep s (MTree.sum [s, MTree.ica i]) t) =
      some (MTree.sum [s, MTree.ica i])
  | .sdpa k, s, i, hs, h1, h2 => by
    simp only [cnt] at h1
    split at h1
    · rename_i he
      have e1 : rep s (MTree.sum [s, MTree.ica i]) (MTree.sdpa k) =
          MTree.sum [s, MTree.ica i] := by
        simp only [rep]
        rw [if_pos he]
      rw [e1]
      simp only [findParent]
      rw [if_pos (by simp)]
    · omega
  | .ica k, s, i, hs, h1, h2 => by
    obtain ⟨j, rfl⟩ := hs
    simp [cnt] at h1
  | .leaf k, s, i, hs, h1, h2 => by
    obtain ⟨j, rfl⟩ := hs
    simp [cnt] at h1
  | .sum cs, s, i, hs, h1, h2 => by
    have hcs1 : cntL s cs = 1 := by
      obtain ⟨j, hj⟩ := hs
      simp only [cnt] at h1
      rw [if_neg (by rw [hj]; simp)] at h1
      omega
    have hcs2 : cntL (MTree.ica i) cs = 0 := by
      simp only [cnt] at h2
      rw [if_neg (by simp)] at h2
      omega
    have e1 : rep s (MTree.sum [s, MTree.ica i]) (MTree.sum cs) =
        MTree.sum (repL s (MTree.sum [s, MTree.ica i]) cs) := by
      obtain ⟨j, hj⟩ := hs
      simp only [rep]
      rw [if_neg (by rw [hj]; simp)]
    rw [e1]
    have e2 : findParent (MTree.ica i) (MTree.sum (repL s (MTree.sum [s, MTree.ica i]) cs)) =
        findParentL (MTree.ica i) (repL s (MTree.sum [s, MTree.ica i]) cs) := by
      simp only [findParent]
      rw [if_neg (ica_notMem_repL s i hs hcs2)]
    rw [e2]
    exact findParentL_rep cs s i hs hcs1 hcs2
  | .chain cs, s, i, hs, h1, h2 => by
    have hcs1 : cntL s cs = 1 := by
      obtain ⟨j, hj⟩ := hs
      simp only [cnt] at h1
      rw [if_neg (by rw [hj]; simp)] at h1
      omega
    have hcs2 : cntL (MTree.ica i) cs = 0 := by
      simp only [cnt] at h2
      rw [if_neg (by simp)] at h2
      omega
    have e1 : rep s (MTree.sum [s, MTree.ica i]) (MTree.chain cs) =
        MTree.chain (repL s (MTree.sum [s, MTree.ica i]) cs) := by
      obtain ⟨j, hj⟩ := hs
      simp only [rep]
      rw [if_neg (by rw [hj]; simp)]
    rw [e1]
    have e2 : findParent (MTree.ica i) (MTree.chain (repL s (MTree.sum [s, MTree.ica i]) cs)) =
        findParentL (MTree.ica i) (repL s (MTree.sum [s, MTree.ica i]) cs) := by
      simp only [findParent]
      rw [if_neg (ica_notMem_repL s i hs hcs2)]
    rw [e2]
    exact findParentL_rep cs s i hs hcs1 hcs2
theorem findParentL_rep : ∀ (cs : List MTree) (s : MTree) (i : Nat), (∃ j, s = MTree.sdpa j) →
    cntL s cs = 1 → cntL (MTree.ica i) cs = 0 →
    findParentL (MTree.ica i) (repL s (MTree.sum [s, MTree.ica i]) cs) =
      some (MTree.sum [s, MTree.ica i])
  | [], s, i, hs, h1, h2 => by simp [cntL] at h1
  | c :: cs, s, i, hs, h1, h2 => by
    simp only [cntL] at h1 h2
    simp only [repL, findParentL]
    by_cases hc : 1 ≤ cnt s c
    · have hcnt : cnt s c = 1 := by omega
      rw [findParent_rep c s i hs hcnt (by omega)]
    · have h0 : cnt s c = 0 := by omega
      rw [rep_of_cnt_zero _ _ c h0]
      cases hfp : findParent (MTree.ica i) c with
      | some p =>
        have := findParent_some_cnt c _ p hfp
        omega
      | none => exact findParentL_rep cs s i hs (by omega) (by omega)
end

mutual
theorem rep_roundtrip : ∀ (t s : MTree) (i : Nat), (∃ j, s = MTree.sdpa j) →
    cnt s t = 1 → cnt (MTree.ica i) t = 0 →
    rep (MTree.sum [s]) s (rep (MTree.sum [s, MTree.ica i]) (MTree.sum [s])
      (rep s (MTree.sum [s, MTree.ica i]) t)) = t
  | .sdpa k, s, i, hs, h1, h2 => by
    simp only [cnt] at h1
    split at h1
    · rename_i he
      have e1 : rep s (MTree.sum [s, MTree.ica i]) (MTree.sdpa k) =
          MTree.sum [s, MTree.ica i] := by
        simp only [rep]
        rw [if_pos he]
      have e2 : rep (MTree.sum [s, MTree.ica i]) (MTree.sum [s])
          (MTree.sum [s, MTree.ica i]) = MTree.sum [s] := by
        simp only [rep]
        simp
      have e3 : rep (MTree.sum [s]) s (MTree.sum [s]) = s := by
        simp only [rep]
        simp
      rw [e1, e2, e3]
      exact he.symm
    · omega
  | .ica k, s, i, hs, h1, h2 => by
    obtain ⟨j, rfl⟩ := hs
    simp [cnt] at h1
  | .leaf k, s, i, hs, h1, h2 => by
    obtain ⟨j, rfl⟩ := hs
    simp [cnt] at h1
  | .sum cs, s, i, hs, h1, h2 => by
    have hcs1 : cntL s cs = 1 := by
      obtain ⟨j, hj⟩ := hs
      simp only [cnt] at h1
      rw [if_neg (by rw [hj]; simp)] at h1
      omega
    have hcs2 : cntL (MTree.ica i) cs = 0 := by
      simp only [cnt] at h2
      rw [if_neg (by simp)] at h2
      omega
    have e1 : rep s (MTree.sum [s, MTree.ica i]) (MTree.sum cs) =
        MTree.sum (repL s (MTree.sum [s, MTree.ica i]) cs) := by
      obtain ⟨j, hj⟩ := hs
      simp only [rep]
      rw [if_neg (by rw [hj]; simp)]
    have e2 : rep (MTree.sum [s, MTree.ica i]) (MTree.sum [s])
        (MTree.sum (repL s (MTree.sum [s, MTree.ica i]) cs)) =
        MTree.sum (repL (MTree.sum [s, MTree.ica i]) (MTree.sum [s])
          (repL s (MTree.sum [s, MTree.ica i]) cs)) := by
      simp only [rep]
      rw [if_neg ?hne1]
      case hne1 =>
        intro he
        have hm : MTree.ica i ∈ repL s (MTree.sum [s, MTree.ica i]) cs := by
          rw [MTree.sum.injEq] at he
          rw [he]
          simp
        exact ica_notMem_repL s i hs hcs2 hm
    have e3 : rep (MTree.sum [s]) s
        (MTree.sum (repL (MTree.sum [s, MTree.ica i]) (MTree.sum [s])
          (repL s (MTree.sum [s, MTree.ica i]) cs))) =
        MTree.sum (repL (MTree.sum [s]) s (repL (MTree.sum [s, MTree.ica i]) (MTree.sum [s])
          (repL s (MTree.sum [s, MTree.ica i]) cs))) := by
      simp only [rep]
      rw [if_neg ?hne2]
      case hne2 =>
        intro he
        have hm : s ∈ repL (MTree.sum [s, MTree.ica i]) (MTree.sum [s])
            (repL s (MTree.sum [s, MTree.ica i]) cs) := by
          rw [MTree.sum.injEq] at he
          rw [he]
          simp
        exact s_notMem_repL2 s i hs hm
    rw [e1, e2, e3, repL_roundtrip cs s i hs hcs1 hcs2]
  | .chain cs, s, i, hs, h1, h2 => by
    have hcs1 : cntL s cs = 1 := by
      obtain ⟨j, hj⟩ := hs
      simp only [cnt] at h1
      rw [if_neg (by rw [hj]; simp)] at h1
      omega
    have hcs2 : cntL (MTree.ica i) cs = 0 := by
      simp only [cnt] at h2
      rw [if_neg (by simp)] at h2
      omega
    have e1 : rep s (MTree.sum [s, MTree.ica i]) (MTree.chain cs) =
        MTree.chain (repL s (MTree.sum [s, MTree.ica i]) cs) := by
      obtain ⟨j, hj⟩ := hs
      simp only [rep]
      rw [if_neg (by rw [hj]; simp)]
    have e2 : rep (MTree.sum [s, MTree.ica i]) (MTree.sum [s])
        (MTree.chain (repL s (MTree.sum [s, MTree.ica i]) cs)) =
        MTree.chain (repL (MTree.sum [s, MTree.ica i]) (MTree.sum [s])
          (repL s (MTree.sum [s, MTree.ica i]) cs)) := by
      simp only [rep]
      rw [if_neg (by simp)]
    have e3 : rep (MTree.sum [s]) s
        (MTree.chain (repL (MTree.sum [s, MTree.ica i]) (MTree.sum [s])
          (repL s (MTree.sum [s, MTree.ica i]) cs))) =
        MTree.chain (repL (MTree.sum [s]) s (repL (MTree.sum [s, MTree.ica i]) (MTree.sum [s])
          (repL s (MTree.sum [s, MTree.ica i]) cs))) := by
      simp only [rep]
      rw [if_neg (by simp)]
    rw [e1, e2, e3, repL_roundtrip cs s i hs hcs1 hcs2]
theorem repL_roundtrip : ∀ (cs : List MTree) (s : MTree) (i : Nat), (∃ j, s = MTree.sdpa j) →
    cntL s cs = 1 → cntL (MTree.ica i) cs = 0 →
    repL (MTree.sum [s]) s (repL (MTree.sum [s, MTree.ica i]) (MTree.sum [s])
      (repL s (MTree.sum [s, MTree.ica i]) cs)) = cs
  | [], s, i, hs, h1, h2 => by simp [cntL] at h1
  | c :: cs, s, i, hs, h1, h2 => by
    simp only [cntL] at h1 h2
    simp only [repL]
    by_cases hc : 1 ≤ cnt s c
    · rw [rep_roundtrip c s i hs (by omega) (by omega)]
      have hrest : cntL s cs = 0 := by omega
      rw [repL_of_cnt_zero _ _ cs hrest]
      have hPcs : cntL (MTree.sum [s, MTree.ica i]) cs = 0 := by
        by_contra h
        have h3 : 1 ≤ cntL (MTree.sum [s, MTree.ica i]) cs := by omega
        have := cntL_trans cs (MTree.ica i) (MTree.sum [s, MTree.ica i])
          (cnt_ica_P s i hs) h3
        omega
      rw [repL_of_cnt_zero _ _ cs hPcs]
      have hQcs : cntL (MTree.sum [s]) cs = 0 := by
        by_contra h
        have h3 : 1 ≤ cntL (MTree.sum [s]) cs := by omega
        have := cntL_trans cs s (MTree.sum [s]) (cnt_s_Q s) h3
        omega
      rw [repL_of_cnt_zero _ _ cs hQcs]
    · rw [tripleFix s i hs c (by omega) (by omega)]
      rw [repL_roundtrip cs s i hs (by omega) (by omega)]
end

end MTree

/-- C1: for a target attention layer containing exactly one
`ScaledDotProductAttention` sub-module, `CrossAttentionAdapter.inject`
succeeds and `CrossAttentionAdapter.eject` afterwards restores the target
tree to *exactly* its pre-injection form: the very same tree, identifiers
(that is, object identities) included, so the original
`ScaledDotProductAttention` instance — not a copy — is back in its original
position, and any forward pass of the host network on the restored tree is
the pre-injection forward pass.  `hfresh` states that the adapter's
`ImageCrossAttention` is a freshly constructed object not occurring in the
target. -/
theorem crossAttentionAdapter_inject_eject_roundtrip
    (t : MTree) (icaId : Nat)
    (hone : MTree.countSDPA t = 1)
    (hfresh : MTree.cnt (MTree.ica icaId) t = 0) :
    ∃ t2, MTree.injectCAA icaId t = some t2 ∧ MTree.ejectCAA icaId t2 = some t := by
  obtain ⟨s, hs⟩ := MTree.countSDPA_pos t (by omega)
  obtain ⟨⟨j, hj⟩, hcnt1⟩ := MTree.firstSDPA_spec t s hs
  have hle := MTree.cnt_sdpa_le j t
  rw [← hj] at hle
  have hcnt : MTree.cnt s t = 1 := by omega
  have hsd : ∃ j, s = MTree.sdpa j := ⟨j, hj⟩
  refine ⟨MTree.rep s (MTree.sum [s, MTree.ica icaId]) t, ?_, ?_⟩
  · unfold MTree.injectCAA MTree.ensureFindSDPA
    rw [if_pos hone, hs]
  · have hfp := MTree.findParent_rep t s icaId hsd hcnt hfresh
    simp only [MTree.ejectCAA, hfp]
    have hrm : MTree.removeChild (MTree.sum [s, MTree.ica icaId]) (MTree.ica icaId) =
        MTree.sum [s] := by
      subst hj
      simp [MTree.removeChild]
    have hly : MTree.layerSDPAChild (MTree.sum [s]) = some s := by
      subst hj
      simp [MTree.layerSDPAChild]
    simp only [hrm, hly]
    rw [MTree.rep_roundtrip t s icaId hsd hcnt hfresh]

/-- Witness for C1 at a concrete target: a chain with a single
`ScaledDotProductAttention` and a fresh `ImageCrossAttention` identifier. -/
theorem crossAttentionAdapter_inject_eject_roundtrip_witness :
    MTree.countSDPA (MTree.chain [MTree.leaf 0, MTree.sdpa 1, MTree.leaf 2]) = 1 ∧
    MTree.cnt (MTree.ica 7) (MTree.chain [MTree.leaf 0, MTree.sdpa 1, MTree.leaf 2]) = 0 ∧
    ∃ t2, MTree.injectCAA 7 (MTree.chain [MTree.leaf 0, MTree.sdpa 1, MTree.leaf 2]) = some t2 ∧
      MTree.ejectCAA 7 t2 = some (MTree.chain [MTree.leaf 0, MTree.sdpa 1, MTree.leaf 2]) :=
  ⟨by decide, by decide,
    crossAttentionAdapter_inject_eject_roundtrip _ 7 (by decide) (by decide)⟩

/-- C2: `CrossAttentionAdapter.inject` succeeds exactly when the target
contains exactly one `ScaledDotProductAttention` sub-module: it errors when
there are zero matches and when there are two or more (`ensure_find`
semantics, modelled from the spec since fluxion is outside this repository
slice). -/
theorem crossAttentionAdapter_inject_isSome_iff (t : MTree) (icaId : Nat) :
    (MTree.injectCAA icaId t).isSome = true ↔ MTree.countSDPA t = 1 := by
  constructor
  · intro h
    by_cases hc : MTree.countSDPA t = 1
    · exact hc
    · unfold MTree.injectCAA MTree.ensureFindSDPA at h
      rw [if_neg hc] at h
      simp at h
  · intro hc
    obtain ⟨s, hs⟩ := MTree.countSDPA_pos t (by omega)
    unfold MTree.injectCAA MTree.ensureFindSDPA
    rw [if_pos hc, hs]
    rfl

/-! Shape lemmas for the tensor semantics. -/

section TensorLemmas

variable {α : Type} [Field α] {β γ δ : Type}

theorem exists_of_mem_zipWith (f : β → γ → δ) :
    ∀ (l1 : List β) (l2 : List γ) (x : δ), x ∈ List.zipWith f l1 l2 →
      ∃ a ∈ l1, ∃ b ∈ l2, x = f a b
  | b :: l1, c :: l2, x, h => by
    simp only [List.zipWith_cons_cons] at h
    rcases List.mem_cons.mp h with h | h
    · exact ⟨b, by simp, c, by simp, h⟩
    · obtain ⟨a, ha, b2, hb, hx⟩ := exists_of_mem_zipWith f l1 l2 x h
      exact ⟨a, by simp [ha], b2, by simp [hb], hx⟩

theorem isMat_iff_matShaped {r c : Nat} {m : Mat α} :
    isMat r c m = true ↔ matShaped r c m := by
  simp [isMat, allLen, matShaped, List.all_eq_true]

theorem isTen3_iff_ten3Shaped {b s d : Nat} {t : Ten3 α} :
    isTen3 b s d t = true ↔ ten3Shaped b s d t := by
  simp only [isTen3, Bool.and_eq_true, beq_iff_eq, List.all_eq_true, ten3Shaped]
  constructor
  · rintro ⟨h1, h2⟩
    exact ⟨h1, fun m hm => isMat_iff_matShaped.mp (h2 m hm)⟩
  · rintro ⟨h1, h2⟩
    exact ⟨h1, fun m hm => isMat_iff_matShaped.mpr (h2 m hm)⟩

theorem isTen4_iff_ten4Shaped {b h s d : Nat} {t : Ten4 α} :
    isTen4 b h s d t = true ↔ ten4Shaped b h s d t := by
  simp only [isTen4, Bool.and_eq_true, beq_iff_eq, List.all_eq_true, ten4Shaped]
  constructor
  · rintro ⟨h1, h2⟩
    exact ⟨h1, fun u hu => isTen3_iff_ten3Shaped.mp (h2 u hu)⟩
  · rintro ⟨h1, h2⟩
    exact ⟨h1, fun u hu => isTen3_iff_ten3Shaped.mpr (h2 u hu)⟩

theorem linearV_length_none (w : Mat α) (x : Vec α) :
    (linearV w none x).length = w.length := by
  simp [linearV]

theorem linearV_length_some (w : Mat α) (bv x : Vec α) (hb : bv.length = w.length) :
    (linearV w (some bv) x).length = w.length := by
  simp [linearV, hb]

theorem softmaxRow_length (ops : SOps α) (x : Vec α) :
    (softmaxRow ops x).length = x.length := by
  simp [softmaxRow]

theorem layerNormV_length (ops : SOps α) (eps : α) {n : Nat} {w b x : Vec α}
    (hw : w.length = n) (hb : b.length = n) (hx : x.length = n) :
    (layerNormV ops eps w b x).length = n := by
  simp [layerNormV, hw, hb, hx]

theorem ffV_length (ops : SOps α) (w1 w2 : Mat α) (x : Vec α) :
    (ffV ops w1 w2 x).length = w2.length := by
  simp [ffV, linearV]

theorem map3_shape {b s d e : Nat} (f : Vec α → Vec α) {t : Ten3 α}
    (hf : ∀ v : Vec α, v.length = d → (f v).length = e)
    (ht : ten3Shaped b s d t) : ten3Shaped b s e (map3 f t) := by
  obtain ⟨h1, h2⟩ := ht
  refine ⟨by simp [map3, h1], ?_⟩
  intro m hm
  simp only [map3, List.mem_map] at hm
  obtain ⟨m0, hm0, rfl⟩ := hm
  obtain ⟨hl, hr⟩ := h2 m0 hm0
  refine ⟨by simp [hl], ?_⟩
  intro r hr2
  simp only [List.mem_map] at hr2
  obtain ⟨r0, hr0, rfl⟩ := hr2
  exact hf r0 (hr r0 hr0)

theorem linear3_shape {b s d e : Nat} {w : Mat α} (bo : Option (Vec α)) {t : Ten3 α}
    (hw : w.length = e)
    (hb : ∀ bv, bo = some bv → bv.length = e)
    (ht : ten3Shaped b s d t) : ten3Shaped b s e (linear3 w bo t) := by
  refine map3_shape _ ?_ ht
  intro v _
  cases bo with
  | none => rw [linearV_length_none, hw]
  | some bv => rw [linearV_length_some w bv v (by rw [hb bv rfl, hw]), hw]

theorem layerNorm3_shape (ops : SOps α) (eps : α) {b s d : Nat} {w bb : Vec α} {t : Ten3 α}
    (hw : w.length = d) (hb : bb.length = d)
    (ht : ten3Shaped b s d t) : ten3Shaped b s d (layerNorm3 ops eps w bb t) :=
  map3_shape _ (fun v hv => layerNormV_length ops eps hw hb hv) ht

theorem ff3_shape (ops : SOps α) {b s d e : Nat} {w1 w2 : Mat α} {t : Ten3 α}
    (hw2 : w2.length = e)
    (ht : ten3Shaped b s d t) : ten3Shaped b s e (ff3 ops w1 w2 t) :=
  map3_shape _ (fun v _ => by rw [ffV_length, hw2]) ht

theorem t3add_shape {b s d : Nat} {x y : Ten3 α}
    (hx : ten3Shaped b s d x) (hy : ten3Shaped b s d y) :
    ten3Shaped b s d (t3add x y) := by
  obtain ⟨hx1, hx2⟩ := hx
  obtain ⟨hy1, hy2⟩ := hy
  refine ⟨by simp [t3add, hx1, hy1], ?_⟩
  intro m hm
  obtain ⟨ma, hma, mb, hmb, rfl⟩ := exists_of_mem_zipWith _ _ _ _ hm
  obtain ⟨ha1, ha2⟩ := hx2 ma hma
  obtain ⟨hb1, hb2⟩ := hy2 mb hmb
  refine ⟨by simp [ha1, hb1], ?_⟩
  intro r hr
  obtain ⟨ra, hra, rb, hrb, rfl⟩ := exists_of_mem_zipWith _ _ _ _ hr
  simp [ha2 ra hra, hb2 rb hrb]

theorem catSeq_shape {b s1 s2 d : Nat} {x y : Ten3 α}
    (hx : ten3Shaped b s1 d x) (hy : ten3Shaped b s2 d y) :
    ten3Shaped b (s1 + s2) d (catSeq x y) := by
  obtain ⟨hx1, hx2⟩ := hx
  obtain ⟨hy1, hy2⟩ := hy
  refine ⟨by simp [catSeq, hx1, hy1], ?_⟩
  intro m hm
  obtain ⟨ma, hma, mb, hmb, rfl⟩ := exists_of_mem_zipWith _ _ _ _ hm
  obtain ⟨ha1, ha2⟩ := hx2 ma hma
  obtain ⟨hb1, hb2⟩ := hy2 mb hmb
  refine ⟨by simp [ha1, hb1], ?_⟩
  intro r hr
  rcases List.mem_append.mp hr with h | h
  · exact ha2 r h
  · exact hb2 r h

end TensorLemmas

section TensorLemmas2

variable {α : Type} [Field α] {β : Type}

theorem chunkEvery_shape (k : Nat) (hk : 0 < k) :
    ∀ (m : Nat) (l : List β), l.length = m * k →
      (chunkEvery k l).length = m ∧ ∀ c ∈ chunkEvery k l, c.length = k
  | 0, l, hl => by
    have h0 : l.length = 0 := by simp only [Nat.zero_mul] at hl; exact hl
    rw [chunkEvery, dif_neg (by omega)]
    simp
  | m + 1, l, hl => by
    have hcond : 0 < k ∧ l.length ≠ 0 := ⟨hk, by rw [hl]; positivity⟩
    rw [chunkEvery, dif_pos hcond]
    have hdrop : (l.drop k).length = m * k := by
      simp only [List.length_drop, hl]
      ring_nf
      omega
    obtain ⟨ih1, ih2⟩ := chunkEvery_shape k hk m (l.drop k) hdrop
    refine ⟨by simp [ih1], ?_⟩
    intro c hc
    rcases List.mem_cons.mp hc with rfl | hc
    · have hkle : k ≤ (m + 1) * k := Nat.le_mul_of_pos_left k (by omega)
      simp only [List.length_take, hl]
      omega
    · exact ih2 c hc

theorem transposeL_shape :
    ∀ (x : List (List β)) (m n : Nat), x.length = m → 0 < m →
      (∀ r ∈ x, r.length = n) →
      (transposeL x).length = n ∧
      (∀ c ∈ transposeL x, c.length = m) ∧
      (∀ c ∈ transposeL x, ∀ e ∈ c, ∃ r ∈ x, e ∈ r)
  | [], m, n, hm, hp, _ => by
    simp at hm
    omega
  | [r], m, n, hm, hp, hr => by
    simp only [transposeL]
    have hrn : r.length = n := hr r (by simp)
    have hm1 : m = 1 := by simpa using hm.symm
    refine ⟨by simp [hrn], ?_, ?_⟩
    · intro c hc
      simp only [List.mem_map] at hc
      obtain ⟨a, ha, rfl⟩ := hc
      simp [hm1]
    · intro c hc e he
      simp only [List.mem_map] at hc
      obtain ⟨a, ha, rfl⟩ := hc
      simp only [List.mem_singleton] at he
      subst he
      exact ⟨r, by simp, ha⟩
  | r :: r2 :: rs, m, n, hm, hp, hr => by
    simp only [transposeL]
    have hm2 : (r2 :: rs).length = m - 1 := by
      simp only [List.length_cons] at hm ⊢
      omega
    have hp2 : 0 < m - 1 := by
      simp only [List.length_cons] at hm
      omega
    have hr2 : ∀ q ∈ r2 :: rs, q.length = n := fun q hq => hr q (by simp [hq])
    obtain ⟨ih1, ih2, ih3⟩ := transposeL_shape (r2 :: rs) (m - 1) n hm2 hp2 hr2
    have hrn : r.length = n := hr r (by simp)
    refine ⟨by simp [List.length_zipWith, hrn, ih1], ?_, ?_⟩
    · intro c hc
      obtain ⟨a, ha, col, hcol, rfl⟩ := exists_of_mem_zipWith _ _ _ _ hc
      have hcl := ih2 col hcol
      simp only [List.length_cons] at hm
      simp only [List.length_cons, hcl]
      omega
    · intro c hc e he
      obtain ⟨a, ha, col, hcol, rfl⟩ := exists_of_mem_zipWith _ _ _ _ hc
      rcases List.mem_cons.mp he with rfl | he
      · exact ⟨r, by simp, ha⟩
      · obtain ⟨q, hq, hqe⟩ := ih3 col hcol e he
        exact ⟨q, List.mem_cons_of_mem r hq, hqe⟩

theorem flatten_length_of_allLen {d : Nat} :
    ∀ (u : List (List β)), (∀ r ∈ u, r.length = d) → u.flatten.length = u.length * d
  | [], _ => by simp
  | r :: u, h => by
    simp only [List.flatten_cons, List.length_append, List.length_cons]
    rw [h r (by simp), flatten_length_of_allLen u (fun q hq => h q (by simp [hq]))]
    ring

theorem reshapeTensor_shape {b s h d : Nat} (hh : 0 < h) (hd : 0 < d) (hs : 0 < s)
    {x : Ten3 α} (hx : ten3Shaped b s (h * d) x) :
    ten4Shaped b h s d (reshapeTensor h x) := by
  obtain ⟨h1, h2⟩ := hx
  refine ⟨by simp [reshapeTensor, h1], ?_⟩
  intro u hu
  simp only [reshapeTensor, List.mem_map] at hu
  obtain ⟨m, hm, rfl⟩ := hu
  obtain ⟨hml, hmr⟩ := h2 m hm
  have hmm2 : ∀ r ∈ m.map (fun v => chunkEvery (v.length / h) v),
      r.length = h ∧ ∀ cdl ∈ r, cdl.length = d := by
    intro r hr
    simp only [List.mem_map] at hr
    obtain ⟨v, hv, rfl⟩ := hr
    have hvl : v.length = h * d := hmr v hv
    have hdiv : v.length / h = d := by
      rw [hvl]
      exact Nat.mul_div_cancel_left d hh
    rw [hdiv]
    exact chunkEvery_shape d hd h v hvl
  obtain ⟨t1, t2, t3⟩ := transposeL_shape (m.map (fun v => chunkEvery (v.length / h) v)) s h
    (by simp [hml]) hs (fun r hr => (hmm2 r hr).1)
  refine ⟨t1, ?_⟩
  intro mt hmt
  refine ⟨t2 mt hmt, ?_⟩
  intro r hrr
  obtain ⟨row, hrow, hmem⟩ := t3 mt hmt r hrr
  exact (hmm2 row hrow).2 r hmem

theorem matMulRT_shape (A B : Mat α) : matShaped A.length B.length (matMulRT A B) := by
  refine ⟨by simp [matMulRT], ?_⟩
  intro r hr
  simp only [matMulRT, List.mem_map] at hr
  obtain ⟨a, _, rfl⟩ := hr
  simp

theorem foldl_vadd_length {d : Nat} :
    ∀ (vs : List (Vec α)) (acc : Vec α), acc.length = d → (∀ v ∈ vs, v.length = d) →
      (vs.foldl (List.zipWith (· + ·)) acc).length = d
  | [], acc, ha, _ => ha
  | v :: vs, acc, ha, hv => by
    simp only [List.foldl_cons]
    exact foldl_vadd_length vs _
      (by simp [List.length_zipWith, ha, hv v (by simp)])
      (fun w hw => hv w (by simp [hw]))

theorem lincomb_length {d : Nat} (coeffs : Vec α) (rows : Mat α)
    (hrows : ∀ r ∈ rows, r.length = d) : (lincomb coeffs rows d).length = d := by
  apply foldl_vadd_length
  · simp [vzeros]
  · intro v hv
    obtain ⟨c, hc, r, hrr, rfl⟩ := exists_of_mem_zipWith _ _ _ _ hv
    simp [hrows r hrr]

theorem matMul_shape {d : Nat} (A B : Mat α) (hB : 0 < B.length)
    (hBr : ∀ r ∈ B, r.length = d) : matShaped A.length d (matMul A B) := by
  have hw : width B = d := by
    cases B with
    | nil => simp at hB
    | cons r rs => simpa [width] using hBr r (by simp)
  refine ⟨by simp [matMul], ?_⟩
  intro r hr
  simp only [matMul, List.mem_map] at hr
  obtain ⟨a, _, rfl⟩ := hr
  rw [hw]
  exact lincomb_length a B hBr

theorem smulMat_shape {r c : Nat} (s : α) {m : Mat α} (hm : matShaped r c m) :
    matShaped r c (smulMat s m) := by
  obtain ⟨h1, h2⟩ := hm
  refine ⟨by simp [smulMat, h1], ?_⟩
  intro row hrow
  simp only [smulMat, List.mem_map] at hrow
  obtain ⟨r0, hr0, rfl⟩ := hrow
  simp [h2 r0 hr0]

theorem softmaxMat_shape (ops : SOps α) {r c : Nat} {m : Mat α} (hm : matShaped r c m) :
    matShaped r c (softmaxMat ops m) := by
  obtain ⟨h1, h2⟩ := hm
  refine ⟨by simp [softmaxMat, h1], ?_⟩
  intro row hrow
  simp only [softmaxMat, List.mem_map] at hrow
  obtain ⟨r0, hr0, rfl⟩ := hrow
  simp [softmaxRow_length, h2 r0 hr0]

theorem unReshape_shape {b h s d : Nat} (hh : 0 < h) (hs : 0 < s) {x : Ten4 α}
    (hx : ten4Shaped b h s d x) : ten3Shaped b s (h * d) (unReshape x) := by
  obtain ⟨h1, h2⟩ := hx
  refine ⟨by simp [unReshape, h1], ?_⟩
  intro m hm
  simp only [unReshape, List.mem_map] at hm
  obtain ⟨u, hu, rfl⟩ := hm
  obtain ⟨hu1, hu2⟩ := h2 u hu
  obtain ⟨t1, t2, t3⟩ := transposeL_shape u h s hu1 hh (fun r hr => (hu2 r hr).1)
  refine ⟨by simp [t1], ?_⟩
  intro r hr
  simp only [List.mem_map] at hr
  obtain ⟨c, hc, rfl⟩ := hr
  have hce : ∀ e ∈ c, e.length = d := by
    intro e he
    obtain ⟨rU, hrU, heU⟩ := t3 c hc e he
    exact (hu2 rU hrU).2 e heU
  rw [flatten_length_of_allLen c hce, t2 c hc]

theorem chunkHalf_fst_shape {b m w : Nat} {kv : Ten3 α} (hkv : ten3Shaped b m (2 * w) kv) :
    ten3Shaped b m w (kv.map (fun mm => mm.map (fun v => (chunkHalf v).1))) := by
  obtain ⟨h1, h2⟩ := hkv
  refine ⟨by simp [h1], ?_⟩
  intro mm hmm
  simp only [List.mem_map] at hmm
  obtain ⟨m0, hm0, rfl⟩ := hmm
  obtain ⟨hl, hr⟩ := h2 m0 hm0
  refine ⟨by simp [hl], ?_⟩
  intro r hrr
  simp only [List.mem_map] at hrr
  obtain ⟨v, hv, rfl⟩ := hrr
  have hvl := hr v hv
  simp only [chunkHalf, List.length_take, hvl]
  omega

theorem chunkHalf_snd_shape {b m w : Nat} {kv : Ten3 α} (hkv : ten3Shaped b m (2 * w) kv) :
    ten3Shaped b m w (kv.map (fun mm => mm.map (fun v => (chunkHalf v).2))) := by
  obtain ⟨h1, h2⟩ := hkv
  refine ⟨by simp [h1], ?_⟩
  intro mm hmm
  simp only [List.mem_map] at hmm
  obtain ⟨m0, hm0, rfl⟩ := hmm
  obtain ⟨hl, hr⟩ := h2 m0 hm0
  refine ⟨by simp [hl], ?_⟩
  intro r hrr
  simp only [List.mem_map] at hrr
  obtain ⟨v, hv, rfl⟩ := hrr
  have hvl := hr v hv
  simp only [chunkHalf, List.length_drop, hvl]
  omega

theorem zip4_matMulRT_shape {b h n m d : Nat} (scale : α) {Q K : Ten4 α}
    (hQ : ten4Shaped b h n d Q) (hK : ten4Shaped b h m d K) :
    ten4Shaped b h n m (List.zipWith (fun qb kb => List.zipWith
      (fun qh kh => matMulRT (smulMat scale qh) (smulMat scale kh)) qb kb) Q K) := by
  obtain ⟨hQ1, hQ2⟩ := hQ
  obtain ⟨hK1, hK2⟩ := hK
  refine ⟨by simp [List.length_zipWith, hQ1, hK1], ?_⟩
  intro u hu
  obtain ⟨qb, hqb, kb, hkb, rfl⟩ := exists_of_mem_zipWith _ _ _ _ hu
  obtain ⟨hq1, hq2⟩ := hQ2 qb hqb
  obtain ⟨hk1, hk2⟩ := hK2 kb hkb
  refine ⟨by simp [List.length_zipWith, hq1, hk1], ?_⟩
  intro mt hmt
  obtain ⟨qh, hqh, kh, hkh, rfl⟩ := exists_of_mem_zipWith _ _ _ _ hmt
  obtain ⟨a1, a2⟩ := matMulRT_shape (smulMat scale qh) (smulMat scale kh)
  have e1 : (smulMat scale qh).length = n := by simp [smulMat, (hq2 qh hqh).1]
  have e2 : (smulMat scale kh).length = m := by simp [smulMat, (hk2 kh hkh).1]
  rw [e1] at a1
  rw [e2] at a2
  exact ⟨a1, a2⟩

theorem softmax4_shape (ops : SOps α) {b h n m : Nat} {A : Ten4 α}
    (hA : ten4Shaped b h n m A) :
    ten4Shaped b h n m (A.map (fun bb => bb.map (softmaxMat ops))) := by
  obtain ⟨h1, h2⟩ := hA
  refine ⟨by simp [h1], ?_⟩
  intro u hu
  simp only [List.mem_map] at hu
  obtain ⟨u0, hu0, rfl⟩ := hu
  obtain ⟨hl, hr⟩ := h2 u0 hu0
  refine ⟨by simp [hl], ?_⟩
  intro mt hmt
  simp only [List.mem_map] at hmt
  obtain ⟨m0, hm0, rfl⟩ := hmt
  exact softmaxMat_shape ops (hr m0 hm0)

theorem zip4_matMul_shape {b h n m d : Nat} (hm0 : 0 < m) {A V : Ten4 α}
    (hA : ten4Shaped b h n m A) (hV : ten4Shaped b h m d V) :
    ten4Shaped b h n d (List.zipWith (fun ab vb => List.zipWith matMul ab vb) A V) := by
  obtain ⟨hA1, hA2⟩ := hA
  obtain ⟨hV1, hV2⟩ := hV
  refine ⟨by simp [List.length_zipWith, hA1, hV1], ?_⟩
  intro u hu
  obtain ⟨ab, hab, vb, hvb, rfl⟩ := exists_of_mem_zipWith _ _ _ _ hu
  obtain ⟨ha1, ha2⟩ := hA2 ab hab
  obtain ⟨hv1, hv2⟩ := hV2 vb hvb
  refine ⟨by simp [List.length_zipWith, ha1, hv1], ?_⟩
  intro mt hmt
  obtain ⟨am, ham, vm, hvm, rfl⟩ := exists_of_mem_zipWith _ _ _ _ hmt
  have := matMul_shape am vm (by rw [(hv2 vm hvm).1]; exact hm0) (hv2 vm hvm).2
  rw [(ha2 am ham).1] at this
  exact this

theorem perceiverSDPA_shape (ops : SOps α) {b n m h d : Nat} (scale : α)
    (hh : 0 < h) (hd : 0 < d) (hn : 0 < n) (hm : 0 < m)
    {kv q : Ten3 α} (hkv : ten3Shaped b m (2 * (h * d)) kv)
    (hq : ten3Shaped b n (h * d) q) :
    ten3Shaped b n (h * d) (perceiverSDPA ops h scale kv q) := by
  simp only [perceiverSDPA]
  have hkey := chunkHalf_fst_shape hkv
  have hval := chunkHalf_snd_shape hkv
  have hq4 := reshapeTensor_shape hh hd hn hq
  have hk4 := reshapeTensor_shape hh hd hm hkey
  have hv4 := reshapeTensor_shape hh hd hm hval
  have hatt1 := zip4_matMulRT_shape scale hq4 hk4
  have hatt2 := softmax4_shape ops hatt1
  have hatt3 := zip4_matMul_shape hm hatt2 hv4
  exact unReshape_shape hh hn hatt3

end TensorLemmas2

section ResamplerLemmas

variable {α : Type} [Field α]

theorem perceiverAttention_shape (ops : SOps α) (eps : α) {b s nt latD h dh : Nat}
    (scale : α) {W : PAttnW α} (hW : pAttnWF latD h dh W)
    (hh : 0 < h) (hdh : 0 < dh) (hnt : 0 < nt)
    {x latents : Ten3 α} (hx : ten3Shaped b s latD x)
    (hl : ten3Shaped b nt latD latents) :
    ten3Shaped b nt latD (perceiverAttention ops eps h scale W x latents) := by
  obtain ⟨w1, w2, w3, w4, w5, w6, w7⟩ := hW
  simp only [perceiverAttention]
  have hxn := layerNorm3_shape ops eps w1 w2 hx
  have hln := layerNorm3_shape ops eps w3 w4 hl
  have hcat := catSeq_shape hxn hln
  have hkv := linear3_shape none w5 (fun bv hb => nomatch hb) hcat
  have hq := linear3_shape none w6 (fun bv hb => nomatch hb) hln
  have hsdpa := perceiverSDPA_shape ops scale hh hdh hnt (by omega : 0 < s + nt) hkv hq
  exact linear3_shape none w7 (fun bv hb => nomatch hb) hsdpa

theorem transformerLayer_shape (ops : SOps α) (eps : α) {b s nt latD h dh : Nat}
    (scale : α) {L : PLayerW α} (hL : pLayerWF latD h dh L)
    (hh : 0 < h) (hdh : 0 < dh) (hnt : 0 < nt)
    {x latents : Ten3 α} (hx : ten3Shaped b s latD x)
    (hl : ten3Shaped b nt latD latents) :
    ten3Shaped b nt latD (transformerLayer ops eps h scale L x latents) := by
  obtain ⟨hA, l1, l2, l3⟩ := hL
  simp only [transformerLayer]
  have h1 := t3add_shape hl (perceiverAttention_shape ops eps scale hA hh hdh hnt hx hl)
  exact t3add_shape h1 (ff3_shape ops l3 (layerNorm3_shape ops eps l1 l2 h1))

theorem foldl_transformer_shape (ops : SOps α) (eps : α) {b s nt latD h dh : Nat}
    (scale : α) (hh : 0 < h) (hdh : 0 < dh) (hnt : 0 < nt)
    {x : Ten3 α} (hx : ten3Shaped b s latD x) :
    ∀ (layers : List (PLayerW α)) (lat : Ten3 α), (∀ L ∈ layers, pLayerWF latD h dh L) →
      ten3Shaped b nt latD lat →
      ten3Shaped b nt latD
        (layers.foldl (fun lat L => transformerLayer ops eps h scale L x lat) lat)
  | [], _, _, hlat => hlat
  | L :: ls, lat, hWF, hlat => by
    simp only [List.foldl_cons]
    exact foldl_transformer_shape ops eps scale hh hdh hnt hx ls _
      (fun q hq => hWF q (by simp [hq]))
      (transformerLayer_shape ops eps scale (hWF L (by simp)) hh hdh hnt hx hlat)

end ResamplerLemmas

/-- C4: for every input sequence — `s` is universally quantified, so the
conclusion holds for sequence length 1, 16, 257 or any other — the
`PerceiverResampler` output has shape `(batch, num_tokens, output_dim)`:
`nt` is the row count of the learned latent-token parameter
(`fl.Parameter(num_tokens, latents_dim)`) and `outD` the output dimension
of the final projection, fixed at construction.  The conclusion does not
mention `s`: the number of output tokens is invariant to the input sequence
length. -/
theorem perceiverResampler_output_shape {α : Type} [Field α] (ops : SOps α) (eps : α)
    {b s inD latD h dh nt outD : Nat} (scale : α)
    {wIn : Mat α} {bIn : Vec α} {latentsParam : Mat α} {layers : List (PLayerW α)}
    {wOut : Mat α} {bOut : Vec α} {lnOutW lnOutB : Vec α} {input : Ten3 α}
    (hin : isTen3 b s inD input = true)
    (hwIn : wIn.length = latD) (hbIn : bIn.length = latD)
    (hlp : isMat nt latD latentsParam = true)
    (hlayers : ∀ L ∈ layers, pLayerWF latD h dh L)
    (hwOut : wOut.length = outD) (hbOut : bOut.length = outD)
    (hlnW : lnOutW.length = outD) (hlnB : lnOutB.length = outD)
    (hh : 0 < h) (hdh : 0 < dh) (hnt : 0 < nt) :
    isTen3 b nt outD (perceiverResampler ops eps h scale wIn bIn latentsParam layers
      wOut bOut lnOutW lnOutB input) = true := by
  rw [isTen3_iff_ten3Shaped]
  rw [isTen3_iff_ten3Shaped] at hin
  rw [isMat_iff_matShaped] at hlp
  simp only [perceiverResampler]
  have hx : ten3Shaped b s latD (linear3 wIn (some bIn) input) :=
    linear3_shape (some bIn) hwIn (fun bv hb => by cases hb; exact hbIn) hin
  have hlat0 : ten3Shaped b nt latD
      ((linear3 wIn (some bIn) input).map (fun _ => latentsParam)) := by
    refine ⟨by simp [hx.1], ?_⟩
    intro m hm
    simp only [List.mem_map] at hm
    obtain ⟨_, _, rfl⟩ := hm
    exact hlp
  have hfold := foldl_transformer_shape ops eps scale hh hdh hnt hx layers _ hlayers hlat0
  exact layerNorm3_shape ops eps hlnW hlnB
    (linear3_shape (some bOut) hwOut (fun bv hb => by cases hb; exact hbOut) hfold)

/-- Witness for C4 at a concrete resampler with one transformer layer and a
length-3 input sequence: the output shape is `(1, num_tokens, output_dim)`
with `num_tokens = 1`, `output_dim = 1`. -/
theorem perceiverResampler_output_shape_witness :
    isTen3 1 3 1 [[[(1 : ℚ)], [2], [3]]] = true ∧
    isTen3 1 1 1 (perceiverResampler (⟨id, id, id⟩ : SOps ℚ) 0 1 1 [[1]] [0] [[1]]
      [⟨⟨[1], [0], [1], [0], [[1], [1]], [[1]], [[1]]⟩, [1], [0], [[1]], [[1]]⟩]
      [[1]] [0] [1] [0] [[[1], [2], [3]]]) = true :=
  ⟨by decide,
    @perceiverResampler_output_shape ℚ _ (⟨id, id, id⟩ : SOps ℚ) 0 1 3 1 1 1 1 1 1 1
      [[1]] [0] [[1]]
      [⟨⟨[1], [0], [1], [0], [[1], [1]], [[1]], [[1]]⟩, [1], [0], [[1]], [[1]]⟩]
      [[1]] [0] [1] [0] [[[1], [2], [3]]]
      (by decide) (by decide) (by decide) (by decide)
      (by intro L hL; simp only [List.mem_singleton] at hL; subst hL; simp [pLayerWF, pAttnWF])
      (by decide) (by decide) (by decide) (by decide) (by decide) (by decide) (by decide)⟩

section SDPARefinement

theorem dot_smul_smul (s : ℝ) : ∀ (x y : Vec ℝ),
    dot (x.map (fun v => v * s)) (y.map (fun v => v * s)) = dot x y * (s * s)
  | [], y => by simp [dot]
  | a :: x, [] => by simp [dot]
  | a :: x, b :: y => by
    simp only [List.map_cons, dot, List.zipWith_cons_cons, List.sum_cons]
    have ih := dot_smul_smul s x y
    simp only [dot] at ih
    rw [ih]
    ring

theorem perceiverScale_sq (d : ℝ) :
    (1 / Real.sqrt (Real.sqrt d)) * (1 / Real.sqrt (Real.sqrt d)) = 1 / Real.sqrt d := by
  rw [div_mul_div_comm, one_mul, Real.mul_self_sqrt (Real.sqrt_nonneg d)]

theorem matMulRT_smul_eq (d : ℝ) (A B : Mat ℝ) :
    matMulRT (smulMat (1 / Real.sqrt (Real.sqrt d)) A) (smulMat (1 / Real.sqrt (Real.sqrt d)) B)
      = (matMulRT A B).map (fun r => r.map (fun x => x / Real.sqrt d)) := by
  simp only [matMulRT, smulMat, List.map_map]
  apply List.map_congr_left
  intro a _
  simp only [Function.comp_apply, List.map_map]
  apply List.map_congr_left
  intro b _
  simp only [Function.comp_apply]
  rw [dot_smul_smul, perceiverScale_sq]
  ring

end SDPARefinement

/-- C5: `PerceiverScaledDotProductAttention.forward` (i) splits the combined
key-value tensor in half along its last axis (the two halves concatenate
back to the input vector), (ii) by scaling both query and key by
`1/sqrt(sqrt(head_dim))` *before* their dot product computes exactly the
reference attention whose pre-softmax matrix is `query·keyᵀ / sqrt(head_dim)`
— in exact real arithmetic the two definitions agree on the nose — and
(iii) returns an output tensor of the same shape `(b, n, h·dh)` as the
query. -/
theorem perceiverSDPA_matches_reference (ops : SOps ℝ) {b n m h dh : Nat}
    (hh : 0 < h) (hdh : 0 < dh) (hn : 0 < n) (hm : 0 < m)
    {kv q : Ten3 ℝ} (hkv : isTen3 b m (2 * (h * dh)) kv = true)
    (hq : isTen3 b n (h * dh) q = true) :
    (∀ mm ∈ kv, ∀ v ∈ mm, (chunkHalf v).1.length = h * dh ∧
      (chunkHalf v).2.length = h * dh ∧ (chunkHalf v).1 ++ (chunkHalf v).2 = v) ∧
    perceiverSDPA ops h (1 / Real.sqrt (Real.sqrt (dh : ℝ))) kv q =
      perceiverSDPASpec ops h (Real.sqrt (dh : ℝ)) kv q ∧
    isTen3 b n (h * dh) (perceiverSDPA ops h (1 / Real.sqrt (Real.sqrt (dh : ℝ))) kv q)
      = true := by
  rw [isTen3_iff_ten3Shaped] at hkv hq
  refine ⟨?_, ?_, ?_⟩
  · intro mm hmm v hv
    have hvl : v.length = 2 * (h * dh) := (hkv.2 mm hmm).2 v hv
    refine ⟨?_, ?_, List.take_append_drop _ v⟩
    · simp only [chunkHalf, List.length_take, hvl]
      omega
    · simp only [chunkHalf, List.length_drop, hvl]
      omega
  · have hfun : (fun (qh kh : Mat ℝ) =>
        matMulRT (smulMat (1 / Real.sqrt (Real.sqrt (dh : ℝ))) qh)
          (smulMat (1 / Real.sqrt (Real.sqrt (dh : ℝ))) kh))
        = fun qh kh => (matMulRT qh kh).map
            (fun r => r.map (fun x => x / Real.sqrt (dh : ℝ))) := by
      funext qh kh
      exact matMulRT_smul_eq (dh : ℝ) qh kh
    simp only [perceiverSDPA, perceiverSDPASpec, hfun]
  · rw [isTen3_iff_ten3Shaped]
    exact perceiverSDPA_shape ops _ hh hdh hn hm hkv hq

/-- Witness for C5: one batch, one query token, one key-value entry, one
head of dimension one. -/
theorem perceiverSDPA_matches_reference_witness :
    isTen3 1 1 (2 * (1 * 1)) [[[(1 : ℝ), 2]]] = true ∧
    isTen3 1 1 (1 * 1) [[[(3 : ℝ)]]] = true ∧
    (perceiverSDPA (⟨id, id, id⟩ : SOps ℝ) 1 (1 / Real.sqrt (Real.sqrt ((1 : Nat) : ℝ)))
        [[[(1 : ℝ), 2]]] [[[(3 : ℝ)]]] =
      perceiverSDPASpec (⟨id, id, id⟩ : SOps ℝ) 1 (Real.sqrt ((1 : Nat) : ℝ))
        [[[(1 : ℝ), 2]]] [[[(3 : ℝ)]]]) :=
  ⟨by decide, by decide,
    (@perceiverSDPA_matches_reference (⟨id, id, id⟩ : SOps ℝ) 1 1 1 1 1
      (by decide) (by decide) (by decide) (by decide) [[[(1 : ℝ), 2]]] [[[(3 : ℝ)]]]
      (by decide) (by decide)).2.1⟩

/-- C3: `IPAdapter.__init__` builds exactly one `CrossAttentionAdapter` per
attention layer of the target whose concrete type is not exactly
`fl.SelfAttention`, in traversal order: the number of sub-adapters is the
count of non-self-attention layers, the sub-adapter targets are precisely
the filtered layers in order, every layer that is an instance of a proper
*subclass* of `fl.SelfAttention` is adapted (subclasses are not skipped),
and layers of exact class `fl.SelfAttention` are never adapted. -/
theorem ipAdapter_subAdapters_spec (layers : List AttnLayer) (scale : ℚ) :
    (ipSubAdapters layers scale).length =
      layers.countP (fun a => !(isExactlySelfAttention a.cls)) ∧
    (ipSubAdapters layers scale).map (fun ad => ad.target) =
      layers.filter (fun a => !(isExactlySelfAttention a.cls)) ∧
    (∀ a ∈ layers, isSelfAttentionInstance a.cls = true →
      isExactlySelfAttention a.cls = false →
      a ∈ (ipSubAdapters layers scale).map (fun ad => ad.target)) ∧
    (∀ a ∈ layers, isExactlySelfAttention a.cls = true →
      a ∉ (ipSubAdapters layers scale).map (fun ad => ad.target)) := by
  have hmap : (ipSubAdapters layers scale).map (fun ad => ad.target) =
      layers.filter (fun a => !(isExactlySelfAttention a.cls)) := by
    simp only [ipSubAdapters, List.map_map]
    rw [show ((fun ad : CrossAttnAdapterRef => ad.target) ∘
        fun attn => (⟨attn, scale⟩ : CrossAttnAdapterRef)) = id from rfl]
    simp
  refine ⟨?_, hmap, ?_, ?_⟩
  · simp [ipSubAdapters, List.countP_eq_length_filter]
  · intro a ha _ hex
    rw [hmap]
    simp [List.mem_filter, ha, hex]
  · intro a ha hex
    rw [hmap]
    simp [List.mem_filter, hex]

section ScaleZeroLemmas

variable {α : Type} [Field α]

theorem zip_add_zeros1 : ∀ (x y : Vec α), y.length = x.length →
    List.zipWith (· + ·) x (y.map (fun _ => (0 : α))) = x
  | [], _, _ => by simp
  | a :: x, [], h => by simp at h
  | a :: x, b :: y, h => by
    simp only [List.map_cons, List.zipWith_cons_cons]
    rw [zip_add_zeros1 x y (by simpa using h)]
    simp

theorem zip_add_zeros2 : ∀ (m my : Mat α), my.map List.length = m.map List.length →
    List.zipWith (List.zipWith (· + ·)) m (my.map (fun r => r.map (fun _ => (0 : α)))) = m
  | [], [], _ => by simp
  | [], _ :: _, h => by simp at h
  | _ :: _, [], h => by simp at h
  | r :: m, ry :: my, h => by
    simp only [List.map_cons, List.cons.injEq] at h
    obtain ⟨h1, h2⟩ := h
    simp only [List.map_cons, List.zipWith_cons_cons]
    rw [zip_add_zeros1 r ry h1, zip_add_zeros2 m my h2]

theorem t3add_zerosLike : ∀ (a b : Ten3 α), shape3 b = shape3 a →
    t3add a (t3zerosLike b) = a
  | [], [], _ => by simp [t3add, t3zerosLike]
  | [], _ :: _, h => by simp [shape3] at h
  | _ :: _, [], h => by simp [shape3] at h
  | ma :: a, mb :: b, h => by
    simp only [shape3, List.map_cons, List.cons.injEq] at h
    obtain ⟨h1, h2⟩ := h
    simp only [t3add, t3zerosLike, List.map_cons, List.zipWith_cons_cons]
    rw [zip_add_zeros2 ma mb h1]
    have ih := t3add_zerosLike a b (by simpa [shape3] using h2)
    simp only [t3add, t3zerosLike] at ih
    rw [ih]

end ScaleZeroLemmas

/-- C6: with the adapter scale set to 0, the injected
`ImageCrossAttention` term is exactly the all-zero tensor (its `Multiply(0)`
annihilates the attention result), so the `fl.Sum` at the injection point
returns exactly the original `ScaledDotProductAttention` output: the
injected attention layer — and hence the host network built from it —
computes the same forward pass as the un-injected one, for every input
`(q, k, v)` and every published image conditioning tensor `ctx`.  `sdpaF`
is an arbitrary shape-preserving scaled-dot-product attention. -/
theorem injected_attention_scale_zero {α : Type} [Field α]
    (sdpaF : Ten3 α → Ten3 α → Ten3 α → Ten3 α)
    (hsh : ∀ q k v : Ten3 α, shape3 (sdpaF q k v) = shape3 q)
    (wk wv : Mat α) (bk bv : Option (Vec α)) (ctx q k v : Ten3 α) :
    imageCrossAttention sdpaF wk wv bk bv 0 ctx q k v =
      t3zerosLike (sdpaF q (linear3 wk bk ctx) (linear3 wv bv ctx)) ∧
    injectedSdpaSum sdpaF wk wv bk bv 0 ctx q k v = sdpaF q k v := by
  have hz : imageCrossAttention sdpaF wk wv bk bv 0 ctx q k v =
      t3zerosLike (sdpaF q (linear3 wk bk ctx) (linear3 wv bv ctx)) := by
    simp [imageCrossAttention, t3smulL, t3zerosLike]
  refine ⟨hz, ?_⟩
  simp only [injectedSdpaSum, hz]
  apply t3add_zerosLike
  rw [hsh, hsh]

/-- Witness for C6 with a concrete shape-preserving attention function and
concrete tensors: the injected sum returns the original attention output. -/
theorem injected_attention_scale_zero_witness :
    (∀ q k v : Ten3 ℚ, shape3 ((fun q _ _ => q) q k v) = shape3 q) ∧
    injectedSdpaSum (fun (q : Ten3 ℚ) _ _ => q) [[1]] [[1]] none none 0
      [[[2]]] [[[3]]] [[[4]]] [[[5]]] = [[[3]]] :=
  ⟨fun _ _ _ => rfl,
    (injected_attention_scale_zero (fun (q : Ten3 ℚ) _ _ => q) (fun _ _ _ => rfl)
      [[1]] [[1]] none none [[[2]]] [[[3]]] [[[4]]] [[[5]]]).2⟩

/-- C8 counterexample: in non-fine-grained mode the negative embedding is
*not* the projection of an all-zero tensor of the conditional embedding's
shape.  With the identity encoder, a projector that doubles its input
length, and image `[1]`: the code's negative embedding is
`proj(zeros_like(clip_embedding)) = [0, 0]`, while the claim's phrase
denotes `proj(zeros_like(conditional_embedding)) = [0, 0, 0, 0]`. -/
theorem computeClipImageEmbeddingCore_counterexample :
    ¬ ((computeClipImageEmbeddingCore false (fun x => x) (fun x => x)
          (fun x => x ++ x) (fun x : List ℚ => x.map (fun _ => 0)) [1]).1.1 =
        (fun x : List ℚ => x ++ x)
          (((computeClipImageEmbeddingCore false (fun x => x) (fun x => x)
            (fun x => x ++ x) (fun x : List ℚ => x.map (fun _ => 0)) [1]).1.2).map
              (fun _ => 0))) := by decide

/-- C8 (amended): in fine-grained mode the negative embedding is the
projection of a fresh grid-encoder pass over an all-zero tensor shaped like
the preprocessed image input — two encoder passes per call; in
non-fine-grained mode it is the projection of an all-zero tensor shaped
like the *encoder output* (the clip embedding), with a single encoder pass
(the encoder is not re-run). -/
theorem computeClipImageEmbeddingCore_negative_embedding {T : Type}
    (clipEnc gridEnc proj zerosLike : T → T) (img : T) :
    computeClipImageEmbeddingCore true clipEnc gridEnc proj zerosLike img =
      ((proj (gridEnc (zerosLike img)), proj (gridEnc img)), 2) ∧
    computeClipImageEmbeddingCore false clipEnc gridEnc proj zerosLike img =
      ((proj (zerosLike (clipEnc img)), proj (clipEnc img)), 1) :=
  ⟨rfl, rfl⟩

theorem filter_false_eq_nil {T : Type} (p : T → Bool) :
    ∀ (l : List T), (∀ a ∈ l, p a = false) → l.filter p = []
  | [], _ => rfl
  | a :: l, h => by
    simp [List.filter_cons, h a (by simp),
      filter_false_eq_nil p l (fun b hb => h b (by simp [hb]))]

/-- C10: when the bundle holds exactly two keys with the prefix
`ip_adapter.{i:03d}.` — `k1` appearing before `k2` in the bundle's
iteration order, with arbitrary suffixes — the first tensor `t1` is
installed as sub-adapter `i`'s image-key projection weight and the second
`t2` as its image-value projection weight: the assignment follows bundle
order alone and never inspects the key suffixes. -/
theorem ipAdapter_crossAttn_weights_by_order {T : Type}
    (pre mid post : List (List Char × T)) (k1 k2 : List Char) (t1 t2 : T) (i : Nat)
    (hk1 : keyStartsWith k1 (ipAdapterKeyPfx i) = true)
    (hk2 : keyStartsWith k2 (ipAdapterKeyPfx i) = true)
    (hpre : ∀ kv ∈ pre, keyStartsWith kv.1 (ipAdapterKeyPfx i) = false)
    (hmid : ∀ kv ∈ mid, keyStartsWith kv.1 (ipAdapterKeyPfx i) = false)
    (hpost : ∀ kv ∈ post, keyStartsWith kv.1 (ipAdapterKeyPfx i) = false) :
    collectCrossAttnWeights (pre ++ [(k1, t1)] ++ mid ++ [(k2, t2)] ++ post) i
      = [t1, t2] ∧
    loadCrossAttnWeights (pre ++ [(k1, t1)] ++ mid ++ [(k2, t2)] ++ post) i
      = some (t1, t2) := by
  have hcol : collectCrossAttnWeights (pre ++ [(k1, t1)] ++ mid ++ [(k2, t2)] ++ post) i
      = [t1, t2] := by
    simp only [collectCrossAttnWeights, List.filter_append]
    rw [filter_false_eq_nil _ pre hpre, filter_false_eq_nil _ mid hmid,
      filter_false_eq_nil _ post hpost]
    simp [List.filter_cons, hk1, hk2]
  exact ⟨hcol, by rw [loadCrossAttnWeights, hcol]⟩

/-- Witness for C10 with deliberately misleading suffixes: the first
matching key is named `...to_v.weight` and the second `...to_k.weight`, yet
the first tensor (5) still becomes the image-key projection weight and the
second (7) the image-value projection weight, because only bundle order
matters. -/
theorem ipAdapter_crossAttn_weights_by_order_witness :
    loadCrossAttnWeights
      [("image_proj.proj.weight".toList, (0 : ℚ)),
       ("ip_adapter.000.to_v.weight".toList, 5),
       ("unrelated.key".toList, 9),
       ("ip_adapter.000.to_k.weight".toList, 7),
       ("ip_adapter.001.to_k.weight".toList, 11)] 0 = some (5, 7) :=
  (ipAdapter_crossAttn_weights_by_order
    [("image_proj.proj.weight".toList, (0 : ℚ))]
    [("unrelated.key".toList, 9)]
    [("ip_adapter.001.to_k.weight".toList, 11)]
    "ip_adapter.000.to_v.weight".toList "ip_adapter.000.to_k.weight".toList 5 7 0
    (by decide) (by decide) (by decide) (by decide) (by decide)).2

section ClipTailLemmas

variable {α : Type} [Field α] [DecidableEq α] {β : Type}

theorem chunkEvery_one : ∀ l : List β, chunkEvery 1 l = l.map (fun e => [e])
  | [] => by rw [chunkEvery]; simp
  | a :: l => by
    rw [chunkEvery, dif_pos ⟨Nat.one_pos, by simp⟩]
    simp only [List.take_succ_cons, List.take_zero, List.drop_succ_cons, List.drop_zero,
      List.map_cons]
    rw [chunkEvery_one l]

theorem chunkDim0_self {T : Type} {n : Nat} (t : List T) (ht : t.length = n)
    (hn : 1 ≤ n) : chunkDim0 n t = t.map (fun e => [e]) := by
  have hdiv : (n + n - 1) / n = 1 := Nat.div_eq_of_lt_le (by omega) (by omega)
  rw [chunkDim0, ht, hdiv]
  exact chunkEvery_one t

theorem catAlong1_singleton_fold : ∀ (rest : Ten3 α) (v : Mat α),
    (rest.map (fun e => [e])).foldl (fun acc u => List.zipWith (· ++ ·) acc u) [v]
      = [v ++ rest.flatten]
  | [], v => by simp
  | m :: rest, v => by
    simp only [List.map_cons, List.foldl_cons]
    rw [show List.zipWith (· ++ ·) [v] [m] = [v ++ m] from rfl]
    rw [catAlong1_singleton_fold rest (v ++ m)]
    simp

theorem catAlong1_singletons : ∀ (t : Ten3 α), t ≠ [] →
    catAlong1 (t.map (fun e => [e])) = [t.flatten]
  | [], h => absurd rfl h
  | m :: rest, _ => by
    simp only [List.map_cons, catAlong1]
    rw [catAlong1_singleton_fold rest m]
    simp

theorem sum_map_const_of {γ : Type} : ∀ (l : List γ) (g : γ → Nat) (c : Nat),
    (∀ a ∈ l, g a = c) → (l.map g).sum = l.length * c
  | [], _, _, _ => by simp
  | a :: l, g, c, h => by
    simp only [List.map_cons, List.sum_cons, List.length_cons]
    rw [h a (by simp), sum_map_const_of l g c (fun b hb => h b (by simp [hb]))]
    ring

theorem numel3_shaped {n t d : Nat} {x : Ten3 α} (hx : ten3Shaped n t d x) :
    numel3 x = n * t * d := by
  obtain ⟨h1, h2⟩ := hx
  rw [numel3, sum_map_const_of x _ (t * d) ?_, h1]
  · ring
  · intro m hm
    obtain ⟨hl, hr⟩ := h2 m hm
    rw [sum_map_const_of m _ d hr, hl]

theorem numel3_append (a b : Ten3 α) : numel3 (a ++ b) = numel3 a + numel3 b := by
  simp [numel3]

theorem flatten_shaped {n t d : Nat} {x : Ten3 α} (hx : ten3Shaped n t d x) :
    x.flatten.length = n * t ∧ ∀ r ∈ x.flatten, r.length = d := by
  obtain ⟨h1, h2⟩ := hx
  constructor
  · rw [flatten_length_of_allLen x (fun m hm => (h2 m hm).1), h1]
  · intro r hr
    rw [List.mem_flatten] at hr
    obtain ⟨m, hm, hrm⟩ := hr
    exact (h2 m hm).2 r hrm

end ClipTailLemmas

/-- C7: `compute_clip_image_embedding` (weight list absent) returns the
negative embedding concatenated with the conditional embedding along the
batch axis; with more than one image and `concat_batches = true` each
embedding is first reshaped from `n` images of `t` tokens into a single
batch entry of `n·t` tokens per guidance branch (the result is
`[neg.flatten, cond.flatten]`: first entry unconditional, second
conditional, shape `(2, n·t, d)`); otherwise the `n` batch entries of `t`
tokens are kept separate (`neg ++ cond`: first `n` entries unconditional,
last `n` conditional); in both cases the total element count is
`2·n·t·d`. -/
theorem computeClipTail_layout {α : Type} [Field α] [DecidableEq α] {n t d : Nat}
    (concat : Bool) {neg cond : Ten3 α}
    (hneg : isTen3 n t d neg = true) (hcond : isTen3 n t d cond = true)
    (hn : 1 ≤ n) :
    ∃ r, computeClipTail n none concat neg cond = some r ∧
      (1 < n ∧ concat = true →
        r = [neg.flatten, cond.flatten] ∧ isTen3 2 (n * t) d r = true) ∧
      (¬(1 < n ∧ concat = true) →
        r = neg ++ cond ∧ r.length = 2 * n ∧ r.take n = neg ∧ r.drop n = cond) ∧
      numel3 r = 2 * n * t * d := by
  rw [isTen3_iff_ten3Shaped] at hneg hcond
  have hnegne : neg ≠ [] := by
    intro h
    rw [h] at hneg
    have := hneg.1
    simp at this
    omega
  have hcondne : cond ≠ [] := by
    intro h
    rw [h] at hcond
    have := hcond.1
    simp at this
    omega
  have hfoldpos : 1 < n ∧ concat = true → foldAndConcat n concat neg cond
      = [neg.flatten, cond.flatten] := by
    intro hc
    rw [foldAndConcat, if_pos hc]
    rw [chunkDim0_self neg hneg.1 hn, chunkDim0_self cond hcond.1 hn]
    rw [catAlong1_singletons neg hnegne, catAlong1_singletons cond hcondne]
    rfl
  refine ⟨foldAndConcat n concat neg cond, rfl, ?_, ?_, ?_⟩
  · intro hc
    refine ⟨hfoldpos hc, ?_⟩
    rw [hfoldpos hc, isTen3_iff_ten3Shaped]
    obtain ⟨hf1, hf2⟩ := flatten_shaped hneg
    obtain ⟨hg1, hg2⟩ := flatten_shaped hcond
    refine ⟨by simp, ?_⟩
    intro m hm
    rcases List.mem_cons.mp hm with rfl | hm
    · exact ⟨hf1, hf2⟩
    · rcases List.mem_cons.mp hm with rfl | hm
      · exact ⟨hg1, hg2⟩
      · simp at hm
  · intro hc
    have heq : foldAndConcat n concat neg cond = neg ++ cond := by
      rw [foldAndConcat, if_neg hc]
    refine ⟨heq, ?_, ?_, ?_⟩
    · rw [heq]
      simp [hneg.1, hcond.1]
      omega
    · rw [heq, ← hneg.1, List.take_left]
    · rw [heq, ← hneg.1, List.drop_left]
  · by_cases hc : 1 < n ∧ concat = true
    · rw [hfoldpos hc]
      have h2 : ten3Shaped 2 (n * t) d [neg.flatten, cond.flatten] := by
        obtain ⟨hf1, hf2⟩ := flatten_shaped hneg
        obtain ⟨hg1, hg2⟩ := flatten_shaped hcond
        refine ⟨by simp, ?_⟩
        intro m hm
        rcases List.mem_cons.mp hm with rfl | hm
        · exact ⟨hf1, hf2⟩
        · rcases List.mem_cons.mp hm with rfl | hm
          · exact ⟨hg1, hg2⟩
          · simp at hm
      rw [numel3_shaped h2]
      ring
    · rw [foldAndConcat, if_neg hc, numel3_append, numel3_shaped hneg, numel3_shaped hcond]
      ring

/-- Witness for C7 with two images of one token each and
`concat_batches = true`: the result folds each branch into one batch entry
of two tokens. -/
theorem computeClipTail_layout_witness :
    isTen3 2 1 1 [[[(0 : ℚ)]], [[0]]] = true ∧
    isTen3 2 1 1 [[[(1 : ℚ)]], [[2]]] = true ∧
    ∃ r, computeClipTail 2 none true [[[(0 : ℚ)]], [[0]]] [[[(1 : ℚ)]], [[2]]] = some r ∧
      (1 < 2 ∧ true = true →
        r = [([[[(0 : ℚ)]], [[0]]] : Ten3 ℚ).flatten,
          ([[[(1 : ℚ)]], [[2]]] : Ten3 ℚ).flatten] ∧ isTen3 2 (2 * 1) 1 r = true) ∧
      (¬(1 < 2 ∧ true = true) →
        r = [[[(0 : ℚ)]], [[0]]] ++ [[[(1 : ℚ)]], [[2]]] ∧ r.length = 2 * 2 ∧
          r.take 2 = [[[(0 : ℚ)]], [[0]]] ∧ r.drop 2 = [[[(1 : ℚ)]], [[2]]]) ∧
      numel3 r = 2 * 2 * 1 * 1 :=
  ⟨by decide, by decide,
    computeClipTail_layout true (by decide) (by decide) (by decide)⟩

section WeightsLemmas

variable {α : Type} [Field α] [DecidableEq α]

theorem zipWith_one_smul : ∀ (ws : List α) (cond : Ten3 α),
    (∀ w ∈ ws, w = 1) → cond.length = ws.length →
    List.zipWith (fun w img => img.map (fun tok => tok.map (fun x => x * w))) ws cond = cond
  | [], [], _, _ => rfl
  | [], _ :: _, _, h => by simp at h
  | _ :: _, [], _, h => by simp at h
  | w :: ws, m :: c, h1, h2 => by
    have hw : w = 1 := h1 w (by simp)
    simp only [List.zipWith_cons_cons, List.cons.injEq]
    refine ⟨by simp [hw], ?_⟩
    exact zipWith_one_smul ws c (fun a ha => h1 a (by simp [ha])) (by simpa using h2)

theorem getElem?_zipWith_scale : ∀ (ws : List α) (cond : Ten3 α) (i : Nat) (w : α)
    (img : Mat α), ws.get? i = some w → cond.get? i = some img →
    (List.zipWith (fun w img => img.map (fun tok => tok.map (fun x => x * w)))
      ws cond).get? i = some (img.map (fun tok => tok.map (fun x => x * w)))
  | w0 :: ws, m0 :: cond, 0, w, img, h1, h2 => by
    cases h1
    cases h2
    rfl
  | w0 :: ws, m0 :: cond, i + 1, w, img, h1, h2 => by
    simp only [List.get?_cons_succ] at h1 h2
    simp only [List.zipWith_cons_cons, List.get?_cons_succ]
    exact getElem?_zipWith_scale ws cond i w img h1 h2
  | [], _, i, w, img, h1, _ => by simp at h1
  | _ :: _, [], i, w, img, _, h2 => by simp at h2

end WeightsLemmas

/-- C9: when a weight list is passed to `compute_clip_image_embedding`, a
length different from the image batch size is an error (`none`); on a
matching length the computation equals the weight-free computation run on
the scaled conditional embedding — so the negative embedding is never
scaled by the weights, in either `concat_batches` mode.  The scaling
multiplies image `i`'s conditional slice by `ws[i]` broadcast over token
and feature axes; a slice whose weight is exactly 1 is unchanged, and when
every weight is 1 the conditional embedding is left entirely untouched
(the tensor multiplication is skipped). -/
theorem computeClipTail_weights {α : Type} [Field α] [DecidableEq α] {n t d : Nat}
    (ws : List α) (concat : Bool) {neg cond : Ten3 α}
    (hcond : isTen3 n t d cond = true) :
    (ws.length ≠ n → computeClipTail n (some ws) concat neg cond = none) ∧
    (ws.length = n → computeClipTail n (some ws) concat neg cond =
      computeClipTail n none concat neg (applyIPWeights ws cond)) ∧
    ((∀ w ∈ ws, w = 1) → applyIPWeights ws cond = cond) ∧
    (ws.length = n → applyIPWeights ws cond =
      List.zipWith (fun w img => img.map (fun tok => tok.map (fun x => x * w))) ws cond) ∧
    (∀ i w img, ws.length = n → ws.get? i = some w → cond.get? i = some img →
      (applyIPWeights ws cond).get? i =
        some (img.map (fun tok => tok.map (fun x => x * w))) ∧
      (w = 1 → img.map (fun tok => tok.map (fun x => x * w)) = img)) := by
  rw [isTen3_iff_ten3Shaped] at hcond
  have hformula : ws.length = n → applyIPWeights ws cond =
      List.zipWith (fun w img => img.map (fun tok => tok.map (fun x => x * w))) ws cond := by
    intro hlen
    rw [applyIPWeights]
    by_cases hany : ws.any (fun w => w ≠ 1) = true
    · rw [if_pos hany]
    · rw [if_neg hany]
      have hall : ∀ w ∈ ws, w = 1 := by
        intro w hw
        by_contra hne
        exact hany (List.any_eq_true.mpr ⟨w, hw, by simpa using hne⟩)
      rw [zipWith_one_smul ws cond hall (by rw [hcond.1, hlen])]
  refine ⟨?_, ?_, ?_, hformula, ?_⟩
  · intro hne2
    have e1 : computeClipTail n (some ws) concat neg cond
        = if ws.length = n then some (foldAndConcat n concat neg (applyIPWeights ws cond))
          else none := rfl
    rw [e1, if_neg hne2]
  · intro hlen
    have e1 : computeClipTail n (some ws) concat neg cond
        = if ws.length = n then some (foldAndConcat n concat neg (applyIPWeights ws cond))
          else none := rfl
    have e2 : computeClipTail n none concat neg (applyIPWeights ws cond)
        = some (foldAndConcat n concat neg (applyIPWeights ws cond)) := rfl
    rw [e1, e2, if_pos hlen]
  · intro hall
    have hnotany : ¬ (ws.any (fun w => w ≠ 1) = true) := by
      intro hany
      obtain ⟨w, hw, hne⟩ := List.any_eq_true.mp hany
      have hne2 : w ≠ 1 := by simpa using hne
      exact hne2 (hall w hw)
    rw [applyIPWeights, if_neg hnotany]
  · intro i w img hlen h1 h2
    constructor
    · rw [hformula hlen]
      exact getElem?_zipWith_scale ws cond i w img h1 h2
    · intro hw
      rw [hw]
      simp

/-- Witness for C9 with two images, weights `[2, 1]`: the length check
passes, the computation equals the weight-free computation on the scaled
conditional embedding (negative untouched), slice 0 is doubled and slice 1
(weight exactly 1) is unchanged. -/
theorem computeClipTail_weights_witness :
    isTen3 2 1 1 [[[(1 : ℚ)]], [[3]]] = true ∧
    computeClipTail 2 (some [(2 : ℚ), 1]) false [[[(5 : ℚ)]], [[6]]] [[[1]], [[3]]] =
      computeClipTail 2 none false [[[(5 : ℚ)]], [[6]]]
        (applyIPWeights [(2 : ℚ), 1] [[[1]], [[3]]]) :=
  ⟨by decide,
    (@computeClipTail_weights ℚ _ _ 2 1 1 [(2 : ℚ), 1] false
      [[[(5 : ℚ)]], [[6]]] [[[1]], [[3]]] (by decide)).2.1 rfl⟩
